import Mathlib

/-!
Verification of the named-parameter rewriting algorithm and the statement
lifecycle of the pgsql prepared-statement layer (src/statement.go).

Command strings are embedded as `List Char`.  The two regular expressions of
the source are embedded by executable scanners with the exact matching
semantics of Go's leftmost, non-overlapping `FindAllStringIndex`:

* `quoteRegExp`, the pattern matching a single quote, a run of non-quote
  characters and a closing single quote, is embedded by `findQuotes`;
* the per-parameter pattern built in `replaceParameterName` (a delimiter
  character, a sigil character, the parameter name without its sigil, and
  either a delimiter character or the end of the string) is embedded by
  `findMatches`.  The parameter name is treated as literal text, which agrees
  with the source for names free of regular-expression metacharacters.

Both scanners are written with an explicit fuel argument (the length of the
scanned list suffices) so that every definition is structurally recursive and
kernel-reducible.
-/

namespace Pgsql

/-- The delimiter character class of the parameter regular expression in
`replaceParameterName`: the characters between the brackets in
`"[\\- |\n\r\t,)(;=+/<>]"`. -/
def isDelim (c : Char) : Bool :=
  c == '-' || c == ' ' || c == '|' || c == '\n' || c == '\r' || c == '\t' ||
  c == ',' || c == ')' || c == '(' || c == ';' || c == '=' || c == '+' ||
  c == '/' || c == '<' || c == '>'

/-- The sigil character class `[:|@]` of the parameter regular expression. -/
def isSigil (c : Char) : Bool :=
  c == ':' || c == '|' || c == '@'

/-- Single-quote test, the character class of `quoteRegExp`. -/
def isQuote (c : Char) : Bool :=
  c == '\''

/-- Go slice `s[a:b]` on a `List Char`. -/
def sub (s : List Char) (a b : Nat) : List Char :=
  (s.take b).drop a

/-- Number of single-quote characters in a list. -/
def countQ (s : List Char) : Nat :=
  s.countP isQuote

/-- Index of the first single quote in a list, if any. -/
def idxQ : List Char → Option Nat
  | [] => none
  | c :: tl => if isQuote c then some 0 else (idxQ tl).map (· + 1)

/-- One step of the quote scanner: at a quote character, `quoteRegExp` matches
up to and including the next quote; with no closing quote there is no match at
this position nor at any later one. `pos` is the absolute position of the head
of the scanned list; fuel bounds the recursion depth. -/
def findQuotesAux : Nat → List Char → Nat → List (Nat × Nat)
  | 0, _, _ => []
  | _ + 1, [], _ => []
  | fuel + 1, c :: tl, pos =>
    if isQuote c then
      match idxQ tl with
      | some j => (pos, pos + j + 2) :: findQuotesAux fuel (tl.drop (j + 1)) (pos + j + 2)
      | none => []
    else
      findQuotesAux fuel tl (pos + 1)

/-- All matches of `quoteRegExp` in `s`, as index pairs, exactly as Go's
`FindAllStringIndex` returns them. -/
def findQuotes (s : List Char) : List (Nat × Nat) :=
  findQuotesAux s.length s 0

/-- Whether the parameter regular expression matches at the head of `s` for a
parameter name `nm` (the name without its sigil character), and with which
length.  The trailing alternative accepts either a delimiter character (length
`nm.length + 3`) or the end of the scanned string (length `nm.length + 2`). -/
def matchLen (nm : List Char) (s : List Char) : Option Nat :=
  match s with
  | d :: c :: rest =>
    if isDelim d && isSigil c && nm.isPrefixOf rest then
      match rest.drop nm.length with
      | [] => some (nm.length + 2)
      | t :: _ => if isDelim t then some (nm.length + 3) else none
    else none
  | _ => none

/-- The leftmost non-overlapping matches of the parameter regular expression,
as index pairs; the scan resumes right after each match. -/
def findMatchesAux (nm : List Char) : Nat → List Char → Nat → List (Nat × Nat)
  | 0, _, _ => []
  | _ + 1, [], _ => []
  | fuel + 1, d :: tl, pos =>
    match matchLen nm (d :: tl) with
    | some len => (pos, pos + len) :: findMatchesAux nm fuel (tl.drop (len - 1)) (pos + len)
    | none => findMatchesAux nm fuel tl (pos + 1)

/-- All matches of the parameter regular expression for name `nm` in `s`. -/
def findMatches (nm s : List Char) : List (Nat × Nat) :=
  findMatchesAux nm s.length s 0

/-- The output-building loop of `replaceParameterNameInSubstring`: for each
match it writes the input up to and including the leading delimiter, then the
replacement, and finally the input from position `matchEnd - 1` on; with no
match at all it writes the input unchanged (`prevMatchEnd` starts at 1). -/
def writeSegments (s new : List Char) : List (Nat × Nat) → Nat → List Char
  | [], prevMatchEnd =>
    if prevMatchEnd > 1 then sub s (prevMatchEnd - 1) s.length else s
  | (matchStart, matchEnd) :: rest, prevMatchEnd =>
    sub s (prevMatchEnd - 1) (matchStart + 1) ++ new ++ writeSegments s new rest matchEnd

/-- `replaceParameterNameInSubstring`: rewrite one unquoted chunk `s`,
replacing every match of the parameter pattern for `nm` with `new`. -/
def rPNIS (nm new s : List Char) : List Char :=
  writeSegments s new (findMatches nm s) 1

/-- One iteration of the quote loop of `replaceParameterName`: the state is
the output buffer and `prevQuoteEnd`; the chunk before the quoted region is
rewritten, the quoted region is copied verbatim. -/
def rpnStep (command nm new : List Char) (bp : List Char × Nat) (q : Nat × Nat) :
    List Char × Nat :=
  (bp.1 ++ rPNIS nm new (sub command bp.2 q.1) ++ sub command q.1 q.2, q.2)

/-- `replaceParameterName`: split `command` at the matches of `quoteRegExp`,
rewrite the text before each quoted region, copy the quoted region itself, and
finally (when the buffer is non-empty, i.e. some quoted region was seen)
rewrite the remainder; with no quoted region the whole command is rewritten.
`old` is the full parameter name; the pattern uses `old.drop 1`. -/
def replaceParameterName (command old new : List Char) : List Char :=
  let nm := old.drop 1
  let bp := (findQuotes command).foldl (rpnStep command nm new) ([], 0)
  if bp.1.length > 0 then
    bp.1 ++ rPNIS nm new (sub command bp.2 command.length)
  else
    rPNIS nm new command

/-- A decimal digit as a character. -/
def digitChar (d : Nat) : Char :=
  Char.ofNat (48 + d)

/-- Decimal digits of `n`, most significant first, written with explicit fuel
so that the definition is structurally recursive. -/
def natCharsAux : Nat → Nat → List Char
  | 0, _ => []
  | fuel + 1, n =>
    if n = 0 then [] else natCharsAux fuel (n / 10) ++ [digitChar (n % 10)]

/-- Decimal rendering of a natural number, as Go's `fmt` package prints an
integer. -/
def natToChars (n : Nat) : List Char :=
  if n = 0 then ['0'] else natCharsAux (n + 1) n

/-- Reads decimal digits back; a left inverse of `natToChars`. -/
def charsToNat (s : List Char) : Nat :=
  s.foldl (fun a c => a * 10 + (c.toNat - 48)) 0

/-- A parameter object: name (with sigil), optional cast type, and the
back-reference to the owning statement (`none` until bound).  Statements are
identified by a numeric id standing for the Go pointer. -/
structure ParamObj where
  name : List Char
  customTypeName : List Char
  stmt : Option Nat
deriving DecidableEq, Repr

/-- The cast suffix `fmt.Sprintf("::%s", p.customTypeName)` of `adjustCommand`,
empty when the custom type name is empty. -/
def castSuffix (p : ParamObj) : List Char :=
  if p.customTypeName = [] then [] else ':' :: ':' :: p.customTypeName

/-- The replacement token `fmt.Sprintf("$%d%s", i+1, cast)` built in
`adjustCommand` for the parameter at zero-based index `i`. -/
def paramToken (i : Nat) (p : ParamObj) : List Char :=
  '$' :: natToChars (i + 1) ++ castSuffix p

/-- The loop of `adjustCommand`: parameters are processed in supplied order
over the whole, progressively rewritten command. -/
def adjustCommandAux (command : List Char) : List ParamObj → Nat → List Char
  | [], _ => command
  | p :: rest, i =>
    adjustCommandAux (replaceParameterName command p.name (paramToken i p)) rest (i + 1)

/-- `adjustCommand`: rewrite `command`, replacing the named placeholders of
each parameter with its positional token. -/
def adjustCommand (command : List Char) (params : List ParamObj) : List Char :=
  adjustCommandAux command params 0

/-- Substring test: `hasSub pat s` holds when `pat` occurs contiguously in
`s`. -/
def hasSub (pat : List Char) : List Char → Bool
  | [] => pat.isEmpty
  | c :: tl => pat.isPrefixOf (c :: tl) || hasSub pat tl

/-- Shift a list of index pairs by `n`. -/
def shiftPairs (n : Nat) (ps : List (Nat × Nat)) : List (Nat × Nat) :=
  ps.map fun p => (p.1 + n, p.2 + n)

/-- The unquoted chunks of `s` determined by a list of quote-match pairs: the
text before each quoted region, and the remainder after the last one. -/
def chunksAux (s : List Char) : List (Nat × Nat) → Nat → List (List Char)
  | [], prevQuoteEnd => [sub s prevQuoteEnd s.length]
  | q :: rest, prevQuoteEnd => sub s prevQuoteEnd q.1 :: chunksAux s rest q.2

/-- The unquoted chunks of `s` (always one more than the quoted regions). -/
def unquotedChunks (s : List Char) : List (List Char) :=
  chunksAux s (findQuotes s) 0

/-- The quoted regions of `s`, delimiting quotes included. -/
def quotedChunks (s : List Char) : List (List Char) :=
  (findQuotes s).map fun q => sub s q.1 q.2

/-- Interleave unquoted chunks with quoted regions:
`u0 ++ q1 ++ u1 ++ ... ++ qk ++ uk`. -/
def interleave : List (List Char) → List (List Char) → List Char
  | [], _ => []
  | u :: _, [] => u
  | u :: us, q :: qs => u ++ q ++ interleave us qs

/-- The source segments of `writeSegments` for a given match list: the text up
to and including each leading delimiter, and from each `matchEnd - 1` to the
next match (or the end). -/
def segmentsOf (s : List Char) : List (Nat × Nat) → Nat → List (List Char)
  | [], prevMatchEnd =>
    [if prevMatchEnd > 1 then sub s (prevMatchEnd - 1) s.length else s]
  | (matchStart, matchEnd) :: rest, prevMatchEnd =>
    sub s (prevMatchEnd - 1) (matchStart + 1) :: segmentsOf s rest matchEnd

/-- Rewriting a single unquoted chunk through the whole parameter sequence,
parameter by parameter, starting at zero-based parameter index `i`. -/
def rewriteChunkSeq (i : Nat) (params : List ParamObj) (chunk : List Char) : List Char :=
  match params with
  | [] => chunk
  | p :: rest => rewriteChunkSeq (i + 1) rest (rPNIS (p.name.drop 1) (paramToken i p) chunk)

/-- Chunk-wise recursive form of `replaceParameterName`: rewrite the chunk
before each quoted region, copy the quoted region, rewrite the remainder. -/
def procChunks (command nm new : List Char) : List (Nat × Nat) → Nat → List Char
  | [], prevQuoteEnd => rPNIS nm new (sub command prevQuoteEnd command.length)
  | q :: rest, prevQuoteEnd =>
    rPNIS nm new (sub command prevQuoteEnd q.1) ++ sub command q.1 q.2 ++
      procChunks command nm new rest q.2

/-- A list of index pairs is chained above `lo`: starts are at or after `lo`,
every pair spans at least two positions, and each pair ends at or before the
next one starts. -/
inductive Chained : Nat → List (Nat × Nat) → Prop where
  | nil (lo : Nat) : Chained lo []
  | cons {lo a b : Nat} {ps : List (Nat × Nat)} :
      lo ≤ a → a + 2 ≤ b → Chained b ps → Chained lo ((a, b) :: ps)

/-! ### The statement lifecycle model

`Conn`, `ResultSet` and the protocol state machine are external collaborators
whose code is not part of this slice; they are modelled from the spec by their
observable outcomes.  Parameter objects live in a `Store` (modelling the Go
heap); a parameter reference is `none` for a nil pointer or `some pid` for a
pointer to the store entry `pid`, and statements are identified by numeric
ids standing for pointers. -/

/-- An error value surfaced to the caller (`os.Error` in the source). -/
structure PgError where
  msg : List Char
deriving DecidableEq, Repr

/-- Modelled from the spec: the external ResultSet collaborator (a row cursor
and rows-affected counter).  Only the behaviour the Statement methods depend
on is represented: closing it may fault and records the affected-row count
that `rowsAffected` reads afterwards, and scanning the first row either
faults or reports whether a row was fetched. -/
structure ResultSet where
  rowsAffected : Int
  closeRecords : Int
  closeErr : Option PgError
  scanFetched : Bool
  scanErr : Option PgError
deriving DecidableEq, Repr

/-- Closing a ResultSet: the affected-row count is recorded during the close
and the close may return an error. -/
def ResultSet.close (rs : ResultSet) : ResultSet × Option PgError :=
  ({ rs with rowsAffected := rs.closeRecords }, rs.closeErr)

/-- The heap of parameter objects; a `pid` is an index into it. -/
abbrev Store := List ParamObj

/-- The per-connection state this slice touches: the two resource-name
counters. -/
structure ConnState where
  nextStatementId : Nat
  nextPortalId : Nat
deriving DecidableEq, Repr

/-- Modelled from the spec: a fresh connection's counters are zero-based
(resource names `stmt<N>`, `prtl<N>` start at `N = 0`). -/
def initialConn : ConnState :=
  { nextStatementId := 0, nextPortalId := 0 }

/-- The `Statement` record (the `conn` pointer and `name2param` map are
omitted: no verified property reads them). -/
structure Statement where
  sid : Nat
  name : List Char
  portalName : List Char
  command : List Char
  actualCommand : List Char
  isClosed : Bool
  params : List Nat
deriving DecidableEq, Repr

/-- A world: the parameter heap, the connection counters, and the next fresh
statement identity. -/
structure World where
  store : Store
  conn : ConnState
  nextSid : Nat
deriving DecidableEq, Repr

/-- The faults `newStatement` raises (Go panics converted to values; the
world at the moment of the panic is carried alongside). -/
inductive ConstructFault where
  | nilParameter
  | alreadyBound (name : List Char)
deriving DecidableEq, Repr

/-- The parameter-binding loop of `newStatement`: each supplied reference is
checked for nil and for an existing back-reference, then its back-reference
is set to the statement under construction; the resolved parameter objects
are collected in order.  On a fault the loop stops and the store mutated so
far is returned with the fault. -/
def bindParams (sid : Nat) (store : Store) :
    List (Option Nat) → Except (ConstructFault × Store) (Store × List ParamObj)
  | [] => .ok (store, [])
  | none :: _ => .error (.nilParameter, store)
  | some pid :: rest =>
    match store[pid]? with
    | none => .error (.nilParameter, store)
    | some p =>
      if p.stmt.isSome then .error (.alreadyBound p.name, store)
      else
        let p' := { p with stmt := some sid }
        match bindParams sid (store.set pid p') rest with
        | .error e => .error e
        | .ok (store', objs) => .ok (store', p' :: objs)

/-- `newStatement`: bind all parameters (faulting on a nil or already-bound
one), then allocate the `stmt<N>` and `prtl<N>` resource names from the
connection counters, rewrite the command, and return the new statement.  The
counters advance only on success; the store mutations made before a fault
persist. -/
def newStatement (w : World) (command : List Char) (prefs : List (Option Nat)) :
    Except (ConstructFault × World) (World × Statement) :=
  let sid := w.nextSid
  match bindParams sid w.store prefs with
  | .error (f, store') =>
    .error (f, { w with store := store', nextSid := sid + 1 })
  | .ok (store', objs) =>
    let stmt : Statement :=
      { sid := sid
        name := "stmt".toList ++ natToChars w.conn.nextStatementId
        portalName := "prtl".toList ++ natToChars w.conn.nextPortalId
        command := command
        actualCommand := adjustCommand command objs
        isClosed := false
        params := prefs.filterMap id }
    .ok ({ store := store'
           conn := { nextStatementId := w.conn.nextStatementId + 1
                     nextPortalId := w.conn.nextPortalId + 1 }
           nextSid := sid + 1 }, stmt)

/-- A construction request: a command and a list of parameter references. -/
abbrev ConstructReq := List Char × List (Option Nat)

/-- Run a sequence of statement constructions on one connection, collecting
the successfully constructed statements and the final world. -/
def runConstructions (w : World) : List ConstructReq → List Statement × World
  | [] => ([], w)
  | r :: rest =>
    match newStatement w r.1 r.2 with
    | .error (_, w') => runConstructions w' rest
    | .ok (w', stmt) =>
      let (stmts, wEnd) := runConstructions w' rest
      (stmt :: stmts, wEnd)

/-- The outcome of handing a statement to the Connection's execute operation.
Modelled from the spec: `conn.state.execute` runs the protocol conversation
and either populates a ResultSet or faults (a panic, converted at the method
boundary into a returned error). -/
abbrev ExecOutcome := Except PgError ResultSet

/-- What a `Query` call did: whether execution was handed to the Connection's
state machine, and the converted outcome. -/
structure QueryResult where
  handedToConn : Bool
  result : ExecOutcome
deriving Repr

/-- `Statement.Query`: unconditionally hands the statement and a fresh
ResultSet to `conn.state.execute` and returns the outcome (panics converted
to errors by the deferred recover). -/
def Statement.query (stmt : Statement) (exec : ExecOutcome) : QueryResult :=
  match stmt, exec with
  | _, .ok rs => { handedToConn := true, result := .ok rs }
  | _, .error e => { handedToConn := true, result := .error e }

/-- `Statement.Execute`: `Query`, then close the ResultSet, then read its
rows-affected counter; a `Query` fault is returned with a zero count, and a
close fault is returned alongside the recorded count. -/
def Statement.execute (stmt : Statement) (exec : ExecOutcome) : Int × Option PgError :=
  match (stmt.query exec).result with
  | .error e => (0, some e)
  | .ok rs =>
    let (rs', err) := rs.close
    (rs'.rowsAffected, err)

/-- `Statement.Scan`: `Query`, then scan the first row of the ResultSet with
the ResultSet closed on every exit path; a `Query` fault is returned with
`fetched = false`. -/
def Statement.scan (stmt : Statement) (exec : ExecOutcome) : Bool × Option PgError :=
  match (stmt.query exec).result with
  | .error e => (false, some e)
  | .ok rs => (rs.scanFetched, rs.scanErr)

/-- `Statement.Close`: issue the protocol close for the prepared-statement
resource (an outcome of the external Connection); the `isClosed` flag is set
only when no fault occurred. -/
def Statement.closeStmt (stmt : Statement) (closeOutcome : Option PgError) :
    Statement × Option PgError :=
  match closeOutcome with
  | none => ({ stmt with isClosed := true }, none)
  | some e => (stmt, some e)

/-- Spec-side composition (§4.2): `Execute` is `Query` followed immediately by
closing the returned ResultSet, returning the affected-row count the
ResultSet records during that close; a `Query` fault propagates unchanged
with a zero count and a close fault is also returned. -/
def executeSpec (stmt : Statement) (exec : ExecOutcome) : Int × Option PgError :=
  match (stmt.query exec).result with
  | .error e => (0, some e)
  | .ok rs => ((rs.close).1.rowsAffected, (rs.close).2)

/-- The store carried by the outcome of a binding loop, whether it faulted or
succeeded. -/
def bindResultStore (r : Except (ConstructFault × Store) (Store × List ParamObj)) : Store :=
  match r with
  | .error e => e.2
  | .ok so => so.1

/-! ### Elementary facts about `sub` and `countQ` -/

theorem sub_eq (s : List Char) (a b : Nat) : sub s a b = (s.drop a).take (b - a) := by
  simp [sub, List.drop_take]

theorem sub_zero_len (s : List Char) : sub s 0 s.length = s := by
  simp [sub]

theorem sub_append_sub (s : List Char) {a b c : Nat} (hab : a ≤ b) (hbc : b ≤ c) :
    sub s a b ++ sub s b c = sub s a c := by
  have h1 : s.drop b = (s.drop a).drop (b - a) := by
    rw [List.drop_drop]; congr 1; omega
  rw [sub_eq, sub_eq, sub_eq, h1, ← List.take_add]
  congr 1; omega

theorem sub_of_isPref (x y : List Char) : sub (x ++ y) 0 x.length = x := by
  simp [sub]

theorem sub_shift (x y : List Char) (a b : Nat) :
    sub (x ++ y) (x.length + a) (x.length + b) = sub y a b := by
  have h : (x ++ y).drop (x.length + a) = y.drop a := by
    simp [List.drop_append]
  rw [sub_eq, sub_eq, h]; congr 1; omega

theorem sub_sublist (s : List Char) (a b : Nat) : (sub s a b).Sublist s :=
  (List.drop_sublist a (s.take b)).trans (List.take_sublist b s)

theorem countQ_append (x y : List Char) : countQ (x ++ y) = countQ x + countQ y :=
  List.countP_append _ _ _

theorem countQ_cons (c : Char) (tl : List Char) :
    countQ (c :: tl) = countQ tl + if isQuote c then 1 else 0 :=
  List.countP_cons _ _ _

theorem countQ_sub_le (s : List Char) (a b : Nat) : countQ (sub s a b) ≤ countQ s :=
  (sub_sublist s a b).countP_le _

theorem countQ_eq_zero {s : List Char} : countQ s = 0 ↔ ∀ c ∈ s, ¬ isQuote c :=
  List.countP_eq_zero

theorem isQuote_iff {c : Char} : isQuote c = true ↔ c = '\'' := by
  simp [isQuote]

/-! ### Fuel irrelevance for the two scanners -/

theorem fq_fuel : ∀ f1 f2 (s : List Char) (pos : Nat), s.length ≤ f1 → s.length ≤ f2 →
    findQuotesAux f1 s pos = findQuotesAux f2 s pos := by
  intro f1
  induction f1 with
  | zero =>
    intro f2 s pos h1 _
    have : s = [] := List.length_eq_zero.mp (Nat.le_zero.mp h1)
    subst this
    cases f2 <;> rfl
  | succ f ih =>
    intro f2 s pos h1 h2
    cases s with
    | nil => cases f2 <;> rfl
    | cons c tl =>
      cases f2 with
      | zero => simp at h2
      | succ g =>
        by_cases hq : isQuote c
        · cases hidx : idxQ tl with
          | none => simp [findQuotesAux, hq, hidx]
          | some j =>
            have hlen : (tl.drop (j + 1)).length ≤ f := by
              simp only [List.length_drop]
              simp only [List.length_cons] at h1
              omega
            have hlen2 : (tl.drop (j + 1)).length ≤ g := by
              simp only [List.length_drop]
              simp only [List.length_cons] at h2
              omega
            simp [findQuotesAux, hq, hidx, ih g _ _ hlen hlen2]
        · have hlen : tl.length ≤ f := by
            simp only [List.length_cons] at h1; omega
          have hlen2 : tl.length ≤ g := by
            simp only [List.length_cons] at h2; omega
          simp [findQuotesAux, hq, ih g _ _ hlen hlen2]

theorem fm_fuel (nm : List Char) : ∀ f1 f2 (s : List Char) (pos : Nat),
    s.length ≤ f1 → s.length ≤ f2 →
    findMatchesAux nm f1 s pos = findMatchesAux nm f2 s pos := by
  intro f1
  induction f1 with
  | zero =>
    intro f2 s pos h1 _
    have : s = [] := List.length_eq_zero.mp (Nat.le_zero.mp h1)
    subst this
    cases f2 <;> rfl
  | succ f ih =>
    intro f2 s pos h1 h2
    cases s with
    | nil => cases f2 <;> rfl
    | cons c tl =>
      cases f2 with
      | zero => simp at h2
      | succ g =>
        cases hm : matchLen nm (c :: tl) with
        | none =>
          have hlen : tl.length ≤ f := by
            simp only [List.length_cons] at h1; omega
          have hlen2 : tl.length ≤ g := by
            simp only [List.length_cons] at h2; omega
          simp [findMatchesAux, hm, ih g _ _ hlen hlen2]
        | some len =>
          have hlen : (tl.drop (len - 1)).length ≤ f := by
            simp only [List.length_drop]
            simp only [List.length_cons] at h1
            omega
          have hlen2 : (tl.drop (len - 1)).length ≤ g := by
            simp only [List.length_drop]
            simp only [List.length_cons] at h2
            omega
          simp [findMatchesAux, hm, ih g _ _ hlen hlen2]

/-! ### The first-quote scanner -/

theorem idxQ_eq_none {s : List Char} : idxQ s = none ↔ countQ s = 0 := by
  induction s with
  | nil => simp [idxQ, countQ]
  | cons c tl ih =>
    by_cases hq : isQuote c
    · simp [idxQ, hq, countQ_cons]
    · simp [idxQ, hq, countQ_cons, Option.map_eq_none', ih]

theorem idxQ_some {s : List Char} {j : Nat} (h : idxQ s = some j) :
    ∃ u v, s = u ++ '\'' :: v ∧ u.length = j ∧ countQ u = 0 := by
  induction s generalizing j with
  | nil => simp [idxQ] at h
  | cons c tl ih =>
    by_cases hq : isQuote c
    · simp only [idxQ, hq, if_pos] at h
      refine ⟨[], tl, ?_, ?_, ?_⟩
      · rw [List.nil_append, isQuote_iff.mp hq]
      · simp at h ⊢; omega
      · rfl
    · simp only [idxQ, hq, if_neg, Bool.false_eq_true, not_false_iff] at h
      rcases Option.map_eq_some'.mp h with ⟨j', hj', rfl⟩
      rcases ih hj' with ⟨u, v, rfl, hlen, hu⟩
      refine ⟨c :: u, v, rfl, by simp [hlen], ?_⟩
      rw [countQ_cons, hu, if_neg hq]

theorem idxQ_append {u v : List Char} (hu : countQ u = 0) :
    idxQ (u ++ '\'' :: v) = some u.length := by
  induction u with
  | nil => simp [idxQ, isQuote]
  | cons c tl ih =>
    rw [countQ_cons] at hu
    have hq : isQuote c = false := by
      by_cases h : isQuote c
      · rw [if_pos h] at hu; omega
      · exact eq_false_of_ne_true h
    have htl : countQ tl = 0 := by
      rw [hq] at hu; simpa using hu
    simp [idxQ, hq, ih htl]

/-! ### Structure of the quote-region scan -/

theorem fq_shift : ∀ (fuel : Nat) (s : List Char) (pos δ : Nat),
    findQuotesAux fuel s (pos + δ) = shiftPairs δ (findQuotesAux fuel s pos) := by
  intro fuel
  induction fuel with
  | zero => intro s pos δ; cases s <;> simp [findQuotesAux, shiftPairs]
  | succ f ih =>
    intro s pos δ
    cases s with
    | nil => simp [findQuotesAux, shiftPairs]
    | cons c tl =>
      by_cases hq : isQuote c
      · cases hidx : idxQ tl with
        | none => simp [findQuotesAux, hq, hidx, shiftPairs]
        | some j =>
          have e : pos + δ + j + 2 = pos + j + 2 + δ := by omega
          simp [findQuotesAux, hq, hidx, shiftPairs, e, ih]
      · have e : pos + δ + 1 = pos + 1 + δ := by omega
        simp [findQuotesAux, hq, e, ih]

theorem fq_cons_nonquote {c : Char} (hq : isQuote c = false) (t : List Char) (pos : Nat) :
    findQuotesAux (c :: t).length (c :: t) pos = findQuotesAux t.length t (pos + 1) := by
  simp [findQuotesAux, hq]

theorem fq_skip {u : List Char} (hu : countQ u = 0) (v : List Char) (pos : Nat) :
    findQuotesAux (u ++ v).length (u ++ v) pos = findQuotesAux v.length v (pos + u.length) := by
  induction u generalizing pos with
  | nil => simp
  | cons c tl ih =>
    rw [countQ_cons] at hu
    have hq : isQuote c = false := by
      by_cases h : isQuote c
      · rw [if_pos h] at hu; omega
      · exact eq_false_of_ne_true h
    have htl : countQ tl = 0 := by
      rw [hq] at hu; simpa using hu
    rw [List.cons_append, fq_cons_nonquote hq, ih htl]
    congr 1
    simp; omega

theorem fq_pair {m : List Char} (hm : countQ m = 0) (r : List Char) (pos : Nat) :
    findQuotesAux ('\'' :: (m ++ '\'' :: r)).length ('\'' :: (m ++ '\'' :: r)) pos
      = (pos, pos + m.length + 2) ::
          findQuotesAux r.length r (pos + m.length + 2) := by
  have hdrop : (m ++ '\'' :: r).drop (m.length + 1) = r := by
    have h : m ++ '\'' :: r = (m ++ ['\'']) ++ r := by simp
    rw [h]
    have hl : (m ++ ['\'']).length = m.length + 1 := by simp
    rw [← hl, List.drop_left]
  have hfuel : r.length ≤ (m ++ '\'' :: r).length := by simp; omega
  simp only [List.length_cons, findQuotesAux, isQuote, beq_self_eq_true, if_true,
    idxQ_append hm, hdrop]
  rw [fq_fuel _ r.length r _ hfuel (le_refl _)]

theorem fq_small {r : List Char} (h : countQ r ≤ 1) (pos : Nat) :
    findQuotesAux r.length r pos = [] := by
  induction r generalizing pos with
  | nil => rfl
  | cons c tl ih =>
    rw [countQ_cons] at h
    by_cases hq : isQuote c
    · have htl : countQ tl = 0 := by rw [if_pos hq] at h; omega
      simp [findQuotesAux, hq, idxQ_eq_none.mpr htl]
    · have htl : countQ tl ≤ 1 := by rw [if_neg hq] at h; omega
      rw [fq_cons_nonquote (eq_false_of_ne_true hq), ih htl]

theorem fq_nil_count {r : List Char} {pos : Nat}
    (h : findQuotesAux r.length r pos = []) : countQ r ≤ 1 := by
  induction r generalizing pos with
  | nil => simp [countQ]
  | cons c tl ih =>
    rw [countQ_cons]
    by_cases hq : isQuote c
    · cases hidx : idxQ tl with
      | none =>
        have h0 : countQ tl = 0 := idxQ_eq_none.mp hidx
        simp [hq, h0]
      | some j => simp [findQuotesAux, hq, hidx] at h
    · have hq' : isQuote c = false := eq_false_of_ne_true hq
      rw [fq_cons_nonquote hq'] at h
      have h1 := ih h
      simp [hq']
      omega

theorem one_quote_decomp {s : List Char} (h : 1 ≤ countQ s) :
    ∃ u v, s = u ++ '\'' :: v ∧ countQ u = 0 := by
  cases hidx : idxQ s with
  | none =>
    rw [idxQ_eq_none.mp hidx] at h
    omega
  | some j =>
    obtain ⟨u, v, rfl, _, hu⟩ := idxQ_some hidx
    exact ⟨u, v, rfl, hu⟩

theorem two_quotes_decomp {s : List Char} (h : 2 ≤ countQ s) :
    ∃ u m r, s = u ++ '\'' :: (m ++ '\'' :: r) ∧ countQ u = 0 ∧ countQ m = 0 := by
  have h1 : 1 ≤ countQ s := by omega
  obtain ⟨u, v, rfl, hu⟩ := one_quote_decomp h1
  have hv : 1 ≤ countQ v := by
    have hc : countQ ('\'' :: v) = countQ v + 1 := by
      rw [countQ_cons]
      simp [isQuote]
    rw [countQ_append, hc, hu] at h
    omega
  obtain ⟨m, r, rfl, hm⟩ := one_quote_decomp hv
  exact ⟨u, m, r, rfl, hu, hm⟩

theorem fq_shift0 (fuel : Nat) (s : List Char) (δ : Nat) :
    findQuotesAux fuel s δ = shiftPairs δ (findQuotesAux fuel s 0) := by
  have h := fq_shift fuel s 0 δ
  rwa [Nat.zero_add] at h

theorem fq_shape {u m : List Char} (hu : countQ u = 0) (hm : countQ m = 0)
    (r : List Char) :
    findQuotes (u ++ '\'' :: (m ++ '\'' :: r))
      = (u.length, u.length + m.length + 2) ::
          shiftPairs (u.length + m.length + 2) (findQuotes r) := by
  unfold findQuotes
  rw [fq_skip hu, fq_pair hm, fq_shift0]
  simp

theorem chunks_shift (x t : List Char) :
    ∀ (prs : List (Nat × Nat)) (pqe : Nat),
      chunksAux (x ++ t) (shiftPairs x.length prs) (x.length + pqe) = chunksAux t prs pqe := by
  intro prs
  induction prs with
  | nil =>
    intro pqe
    have hl : (x ++ t).length = x.length + t.length := by simp
    simp only [shiftPairs, List.map_nil, chunksAux, hl, sub_shift]
  | cons q rest ih =>
    intro pqe
    obtain ⟨a, b⟩ := q
    have ea : a + x.length = x.length + a := by omega
    have eb : b + x.length = x.length + b := by omega
    simp only [shiftPairs, List.map_cons, chunksAux, ea, eb, sub_shift]
    rw [← shiftPairs, ih]

theorem quoted_shift (x t : List Char) (prs : List (Nat × Nat)) :
    (shiftPairs x.length prs).map (fun q => sub (x ++ t) q.1 q.2)
      = prs.map (fun q => sub t q.1 q.2) := by
  induction prs with
  | nil => rfl
  | cons q rest ih =>
    obtain ⟨a, b⟩ := q
    have ea : a + x.length = x.length + a := by omega
    have eb : b + x.length = x.length + b := by omega
    have hstep : shiftPairs x.length ((a, b) :: rest)
        = (a + x.length, b + x.length) :: shiftPairs x.length rest := rfl
    rw [hstep, List.map_cons, List.map_cons, ih]
    congr 1
    show sub (x ++ t) (a + x.length) (b + x.length) = sub t a b
    rw [ea, eb, sub_shift]

theorem chunks_nil {s : List Char} (h : countQ s ≤ 1) :
    unquotedChunks s = [s] ∧ quotedChunks s = [] := by
  have hfq : findQuotes s = [] := fq_small h 0
  constructor
  · rw [unquotedChunks, hfq]
    simp [chunksAux, sub_zero_len]
  · rw [quotedChunks, hfq]
    rfl

theorem shape_eq_append (u m r : List Char) :
    u ++ '\'' :: (m ++ '\'' :: r) = (u ++ '\'' :: (m ++ ['\''])) ++ r := by
  simp

theorem chunks_decomp {u m : List Char} (hu : countQ u = 0) (hm : countQ m = 0)
    (r : List Char) :
    unquotedChunks (u ++ '\'' :: (m ++ '\'' :: r)) = u :: unquotedChunks r
      ∧ quotedChunks (u ++ '\'' :: (m ++ '\'' :: r))
          = ('\'' :: (m ++ ['\''])) :: quotedChunks r := by
  have hfq := fq_shape hu hm r
  have hx : (u ++ '\'' :: (m ++ ['\''])).length = u.length + m.length + 2 := by
    simp; omega
  constructor
  · unfold unquotedChunks
    rw [hfq]
    show sub (u ++ '\'' :: (m ++ '\'' :: r)) 0 u.length
        :: chunksAux (u ++ '\'' :: (m ++ '\'' :: r))
             (shiftPairs (u.length + m.length + 2) (findQuotes r)) (u.length + m.length + 2)
      = u :: unquotedChunks r
    congr 1
    · exact sub_of_isPref u ('\'' :: (m ++ '\'' :: r))
    · rw [shape_eq_append, ← hx]
      have h := chunks_shift (u ++ '\'' :: (m ++ ['\''])) r (findQuotes r) 0
      rw [Nat.add_zero] at h
      rw [h]
      rfl
  · unfold quotedChunks
    rw [hfq, List.map_cons]
    congr 1
    · show sub (u ++ '\'' :: (m ++ '\'' :: r)) u.length (u.length + m.length + 2)
        = '\'' :: (m ++ ['\''])
      have h1 := sub_shift u ('\'' :: (m ++ '\'' :: r)) 0 (m.length + 2)
      have h2 : '\'' :: (m ++ '\'' :: r) = ('\'' :: (m ++ ['\''])) ++ r := by simp
      have h3 := sub_of_isPref ('\'' :: (m ++ ['\''])) r
      have e0 : u.length + 0 = u.length := by omega
      have e1 : u.length + (m.length + 2) = u.length + m.length + 2 := by omega
      have e2 : ('\'' :: (m ++ ['\''])).length = m.length + 2 := by simp
      rw [e0, e1] at h1
      rw [h1, h2, ← e2, h3]
    · rw [shape_eq_append, ← hx, quoted_shift]

/-! ### Structure of the parameter-pattern scan -/

theorem isPrefixOf_take {l₁ l₂ : List Char} (h : l₁.isPrefixOf l₂ = true) :
    l₂.take l₁.length = l₁ := by
  induction l₁ generalizing l₂ with
  | nil => simp
  | cons a tl ih =>
    cases l₂ with
    | nil => simp [List.isPrefixOf] at h
    | cons b tl2 =>
      simp only [List.isPrefixOf, Bool.and_eq_true] at h
      obtain ⟨hab, hpre⟩ := h
      have hab' : a = b := by simpa using hab
      subst hab'
      simp [List.take_succ_cons, ih hpre]

theorem matchLen_facts {nm s : List Char} {len : Nat} (h : matchLen nm s = some len) :
    ∃ d c rest, s = d :: c :: rest ∧ isDelim d = true ∧ isSigil c = true ∧
      rest.take nm.length = nm ∧
      ((len = nm.length + 3 ∧ ∃ t ts, rest.drop nm.length = t :: ts ∧ isDelim t = true)
        ∨ (len = nm.length + 2 ∧ rest.drop nm.length = [])) := by
  match s with
  | [] => simp [matchLen] at h
  | [d] => simp [matchLen] at h
  | d :: c :: rest =>
    simp only [matchLen] at h
    by_cases hcond : (isDelim d && isSigil c && nm.isPrefixOf rest) = true
    · rw [if_pos hcond] at h
      simp only [Bool.and_eq_true] at hcond
      obtain ⟨⟨hd, hc⟩, hpre⟩ := hcond
      refine ⟨d, c, rest, rfl, hd, hc, isPrefixOf_take hpre, ?_⟩
      cases hdrop : rest.drop nm.length with
      | nil =>
        rw [hdrop] at h
        have h2 : some (nm.length + 2) = some len := h
        simp only [Option.some.injEq] at h2
        right
        exact ⟨h2.symm, rfl⟩
      | cons t ts =>
        rw [hdrop] at h
        have h2 : (if isDelim t = true then some (nm.length + 3) else none) = some len := h
        by_cases ht : isDelim t = true
        · rw [if_pos ht] at h2
          simp only [Option.some.injEq] at h2
          left
          exact ⟨h2.symm, t, ts, rfl, ht⟩
        · rw [if_neg ht] at h2
          cases h2
    · rw [if_neg hcond] at h
      cases h

theorem take_eq_imp_le {l nm : List Char} {n : Nat} (h : l.take n = nm)
    (hn : nm.length = n) : n ≤ l.length := by
  have hl := congrArg List.length h
  simp only [List.length_take] at hl
  omega

theorem matchLen_bounds {nm s : List Char} {len : Nat} (h : matchLen nm s = some len) :
    2 ≤ len ∧ len ≤ s.length := by
  obtain ⟨d, c, rest, rfl, _, _, htake, hcase⟩ := matchLen_facts h
  have h1 := congrArg List.length htake
  simp only [List.length_take] at h1
  cases hcase with
  | inl hl =>
    obtain ⟨hlen, t, ts, hdrop, _⟩ := hl
    have h2 := congrArg List.length hdrop
    simp only [List.length_drop, List.length_cons] at h2
    simp only [List.length_cons]
    omega
  | inr hr =>
    obtain ⟨hlen, hdrop⟩ := hr
    have h2 := congrArg List.length hdrop
    simp only [List.length_drop, List.length_nil] at h2
    simp only [List.length_cons]
    omega

theorem chained_weaken {lo lo' : Nat} {ps : List (Nat × Nat)}
    (h : Chained lo ps) (hle : lo' ≤ lo) : Chained lo' ps := by
  cases h with
  | nil => exact .nil lo'
  | cons h1 h2 h3 => exact .cons (le_trans hle h1) h2 h3

theorem fm_chained (nm : List Char) :
    ∀ fuel (s : List Char) (pos : Nat), Chained pos (findMatchesAux nm fuel s pos) := by
  intro fuel
  induction fuel with
  | zero => intro s pos; cases s <;> exact .nil pos
  | succ f ih =>
    intro s pos
    cases s with
    | nil => exact .nil pos
    | cons d tl =>
      cases hm : matchLen nm (d :: tl) with
      | none =>
        have heq : findMatchesAux nm (f + 1) (d :: tl) pos
            = findMatchesAux nm f tl (pos + 1) := by
          simp [findMatchesAux, hm]
        rw [heq]
        exact chained_weaken (ih tl (pos + 1)) (by omega)
      | some len =>
        have hb := matchLen_bounds hm
        have heq : findMatchesAux nm (f + 1) (d :: tl) pos
            = (pos, pos + len) :: findMatchesAux nm f (tl.drop (len - 1)) (pos + len) := by
          simp [findMatchesAux, hm]
        rw [heq]
        exact .cons (le_refl pos) (by omega) (ih _ (pos + len))

theorem fm_bound (nm : List Char) :
    ∀ fuel (s : List Char) (pos : Nat), ∀ p ∈ findMatchesAux nm fuel s pos,
      pos ≤ p.1 ∧ p.2 ≤ pos + s.length := by
  intro fuel
  induction fuel with
  | zero => intro s pos p hp; cases s <;> simp [findMatchesAux] at hp
  | succ f ih =>
    intro s pos p hp
    cases s with
    | nil => simp [findMatchesAux] at hp
    | cons d tl =>
      cases hm : matchLen nm (d :: tl) with
      | none =>
        have heq : findMatchesAux nm (f + 1) (d :: tl) pos
            = findMatchesAux nm f tl (pos + 1) := by
          simp [findMatchesAux, hm]
        rw [heq] at hp
        have := ih tl (pos + 1) p hp
        simp only [List.length_cons]
        omega
      | some len =>
        have hb := matchLen_bounds hm
        simp only [List.length_cons] at hb
        have heq : findMatchesAux nm (f + 1) (d :: tl) pos
            = (pos, pos + len) :: findMatchesAux nm f (tl.drop (len - 1)) (pos + len) := by
          simp [findMatchesAux, hm]
        rw [heq] at hp
        cases hp with
        | head =>
          simp only [List.length_cons]
          omega
        | tail _ hp' =>
          have := ih _ (pos + len) p hp'
          simp only [List.length_drop] at this
          simp only [List.length_cons]
          omega

theorem fm_boundary (nm s0 : List Char) :
    ∀ fuel (k : Nat), s0.length - k ≤ fuel →
      ∀ a b, (a, b) ∈ findMatchesAux nm fuel (s0.drop k) k →
        (∃ d, s0[a]? = some d ∧ isDelim d = true) ∧
        (∃ c, s0[a + 1]? = some c ∧ isSigil c = true) ∧
        (s0.drop (a + 2)).take nm.length = nm ∧
        ((b = a + nm.length + 3 ∧ ∃ t, s0[b - 1]? = some t ∧ isDelim t = true)
          ∨ (b = a + nm.length + 2 ∧ b = s0.length)) := by
  intro fuel
  induction fuel with
  | zero =>
    intro k _ a b hp
    cases hdk : s0.drop k <;> simp [findMatchesAux, hdk] at hp
  | succ f ih =>
    intro k hk a b hp
    cases hdk : s0.drop k with
    | nil => rw [hdk] at hp; simp [findMatchesAux] at hp
    | cons d tl =>
      have hklt : k < s0.length := by
        by_contra hge
        have : s0.drop k = [] := List.drop_eq_nil_of_le (by omega)
        rw [this] at hdk
        cases hdk
      have hlen : s0.length - k = tl.length + 1 := by
        have := congrArg List.length hdk
        simp only [List.length_drop, List.length_cons] at this
        omega
      have htl : s0.drop (k + 1) = tl := by
        have h1 : s0.drop (k + 1) = (s0.drop k).drop 1 := by
          rw [List.drop_drop]
        rw [h1, hdk]
        rfl
      rw [hdk] at hp
      cases hm : matchLen nm (d :: tl) with
      | none =>
        have heq : findMatchesAux nm (f + 1) (d :: tl) k = findMatchesAux nm f tl (k + 1) := by
          simp [findMatchesAux, hm]
        rw [heq, ← htl] at hp
        exact ih (k + 1) (by omega) a b hp
      | some len =>
        have hb := matchLen_bounds hm
        simp only [List.length_cons] at hb
        have heq : findMatchesAux nm (f + 1) (d :: tl) k
            = (k, k + len) :: findMatchesAux nm f (tl.drop (len - 1)) (k + len) := by
          simp [findMatchesAux, hm]
        rw [heq] at hp
        cases hp with
        | head =>
          obtain ⟨d', c, rest, hdc, hd, hc, htake, hcase⟩ := matchLen_facts hm
          have hd'd : d' = d := by
            rw [List.cons.injEq] at hdc
            exact hdc.1.symm
          have htl2 : tl = c :: rest := by
            rw [List.cons.injEq] at hdc
            exact hdc.2
          rw [hd'd] at hd
          subst htl2
          have hga : s0[k]? = some d := by
            have h1 : (s0.drop k)[0]? = s0[k + 0]? := List.getElem?_drop s0 k 0
            rw [hdk] at h1
            simpa using h1.symm
          have hgc : s0[k + 1]? = some c := by
            have h1 : (s0.drop k)[1]? = s0[k + 1]? := List.getElem?_drop s0 k 1
            rw [hdk] at h1
            simpa using h1.symm
          have hrest : s0.drop (k + 2) = rest := by
            have h1 : s0.drop (k + 2) = (s0.drop k).drop 2 := by
              rw [List.drop_drop]
            rw [h1, hdk]
            rfl
          have hrestlen : nm.length ≤ rest.length := by
            have h1 := congrArg List.length htake
            simp only [List.length_take] at h1
            omega
          refine ⟨⟨d, hga, hd⟩, ⟨c, hgc, hc⟩, by rw [hrest]; exact htake, ?_⟩
          cases hcase with
          | inl hl =>
            obtain ⟨hlen3, t, ts, hdrop, ht⟩ := hl
            left
            refine ⟨by omega, t, ?_, ht⟩
            have h1 : rest[nm.length]? = some t := by
              have h2 : (rest.drop nm.length)[0]? = rest[nm.length + 0]? :=
                List.getElem?_drop rest nm.length 0
              rw [hdrop] at h2
              simpa using h2.symm
            have h3 : (s0.drop (k + 2))[nm.length]? = s0[k + 2 + nm.length]? :=
              List.getElem?_drop s0 (k + 2) nm.length
            rw [hrest, h1] at h3
            rw [show k + len - 1 = k + 2 + nm.length by omega]
            exact h3.symm
          | inr hr =>
            obtain ⟨hlen2, hdrop⟩ := hr
            right
            have h2 := congrArg List.length hdrop
            simp only [List.length_drop, List.length_nil] at h2
            constructor
            · omega
            · have hslen : s0.length = k + 2 + rest.length := by
                simp only [List.length_cons] at hlen
                omega
              omega
        | tail _ hp' =>
          have hdrop2 : tl.drop (len - 1) = s0.drop (k + len) := by
            rw [← htl, List.drop_drop]
            congr 1
            omega
          rw [hdrop2] at hp'
          exact ih (k + len) (by omega) a b hp'

/-! ### The output formula and quote counting of the chunk rewriter -/

theorem ws_interleave (s new : List Char) :
    ∀ (pairs : List (Nat × Nat)) (prev : Nat),
      writeSegments s new pairs prev
        = interleave (segmentsOf s pairs prev) (List.replicate pairs.length new) := by
  intro pairs
  induction pairs with
  | nil => intro prev; rfl
  | cons q rest ih =>
    intro prev
    obtain ⟨a, b⟩ := q
    show sub s (prev - 1) (a + 1) ++ new ++ writeSegments s new rest b
      = interleave (sub s (prev - 1) (a + 1) :: segmentsOf s rest b)
          (new :: List.replicate rest.length new)
    rw [ih b]
    show _ = sub s (prev - 1) (a + 1) ++ new ++ _
    rw [List.append_assoc]

theorem countQ_sub_start_mono (s : List Char) {c c' : Nat} (h1 : c ≤ c')
    (h2 : c' ≤ s.length) :
    countQ (sub s c' s.length) ≤ countQ (sub s c s.length) := by
  have hsplit := sub_append_sub s h1 h2
  have := countQ_append (sub s c c') (sub s c' s.length)
  rw [hsplit] at this
  omega

theorem ws_countQ {new : List Char} (hnew : countQ new = 0) (s : List Char) :
    ∀ (pairs : List (Nat × Nat)) (prev : Nat), Chained (prev - 1) pairs →
      (∀ p ∈ pairs, p.2 ≤ s.length) →
      countQ (writeSegments s new pairs prev) ≤ countQ (sub s (prev - 1) s.length) := by
  intro pairs
  induction pairs with
  | nil =>
    intro prev _ _
    show countQ (if prev > 1 then sub s (prev - 1) s.length else s) ≤ _
    by_cases hp : prev > 1
    · rw [if_pos hp]
    · rw [if_neg hp]
      have : prev - 1 = 0 := by omega
      rw [this, sub_zero_len]
  | cons q rest ih =>
    intro prev hch hbd
    obtain ⟨a, b⟩ := q
    cases hch with
    | cons hlo hspan hrest =>
      have hble : b ≤ s.length := hbd (a, b) (List.mem_cons_self _ _)
      have hbd' : ∀ p ∈ rest, p.2 ≤ s.length := fun p hp => hbd p (List.mem_cons_of_mem _ hp)
      have hih := ih b (chained_weaken hrest (by omega)) hbd'
      show countQ (sub s (prev - 1) (a + 1) ++ new ++ writeSegments s new rest b) ≤ _
      rw [countQ_append, countQ_append, hnew]
      have hmono : countQ (sub s (b - 1) s.length) ≤ countQ (sub s (a + 1) s.length) :=
        countQ_sub_start_mono s (by omega) (by omega)
      have hsplit := sub_append_sub s (show prev - 1 ≤ a + 1 by omega)
        (show a + 1 ≤ s.length by omega)
      have hadd := countQ_append (sub s (prev - 1) (a + 1)) (sub s (a + 1) s.length)
      rw [hsplit] at hadd
      omega

theorem rPNIS_countQ (nm : List Char) {new : List Char} (hnew : countQ new = 0) (s : List Char) :
    countQ (rPNIS nm new s) ≤ countQ s := by
  unfold rPNIS
  have hch : Chained 0 (findMatches nm s) := fm_chained nm s.length s 0
  have hbd : ∀ p ∈ findMatches nm s, p.2 ≤ s.length := by
    intro p hp
    have := fm_bound nm s.length s 0 p hp
    omega
  have h := ws_countQ hnew s (findMatches nm s) 1 (by simpa using hch) hbd
  have h0 : sub s (1 - 1) s.length = s := by
    show sub s 0 s.length = s
    exact sub_zero_len s
  rwa [h0] at h

theorem rPNIS_quotefree {nm new s : List Char} (hs : countQ s = 0) (hnew : countQ new = 0) :
    countQ (rPNIS nm new s) = 0 := by
  have h := rPNIS_countQ nm hnew s
  omega

/-! ### `replaceParameterName` as a chunk-wise rewrite -/

theorem rpn_foldl_acc (command nm new : List Char) :
    ∀ (pairs : List (Nat × Nat)) (buf : List Char) (pqe : Nat), buf ≠ [] →
      (if (pairs.foldl (rpnStep command nm new) (buf, pqe)).1.length > 0 then
        (pairs.foldl (rpnStep command nm new) (buf, pqe)).1
          ++ rPNIS nm new
              (sub command (pairs.foldl (rpnStep command nm new) (buf, pqe)).2 command.length)
      else rPNIS nm new command)
        = buf ++ procChunks command nm new pairs pqe := by
  intro pairs
  induction pairs with
  | nil =>
    intro buf pqe hbuf
    have hpos : buf.length > 0 := by
      cases buf with
      | nil => exact absurd rfl hbuf
      | cons a l => simp
    rw [List.foldl_nil, if_pos hpos]
    rfl
  | cons q rest ih =>
    intro buf pqe hbuf
    rw [List.foldl_cons]
    have hstep : rpnStep command nm new (buf, pqe) q
        = (buf ++ (rPNIS nm new (sub command pqe q.1) ++ sub command q.1 q.2), q.2) := by
      simp [rpnStep]
    rw [hstep]
    have hne : buf ++ (rPNIS nm new (sub command pqe q.1) ++ sub command q.1 q.2) ≠ [] := by
      simp [hbuf]
    rw [ih _ q.2 hne]
    obtain ⟨a, b⟩ := q
    simp only [procChunks]
    simp [List.append_assoc]

theorem sub_shape_quoted (u m r : List Char) :
    sub (u ++ '\'' :: (m ++ '\'' :: r)) u.length (u.length + m.length + 2)
      = '\'' :: (m ++ ['\'']) := by
  have h1 := sub_shift u ('\'' :: (m ++ '\'' :: r)) 0 (m.length + 2)
  have h2 : '\'' :: (m ++ '\'' :: r) = ('\'' :: (m ++ ['\''])) ++ r := by simp
  have h3 := sub_of_isPref ('\'' :: (m ++ ['\''])) r
  have e0 : u.length + 0 = u.length := by omega
  have e1 : u.length + (m.length + 2) = u.length + m.length + 2 := by omega
  have e2 : ('\'' :: (m ++ ['\''])).length = m.length + 2 := by simp
  rw [e0, e1] at h1
  rw [h1, h2, ← e2, h3]

theorem rpn_eq_proc (command old new : List Char) :
    replaceParameterName command old new
      = procChunks command (old.drop 1) new (findQuotes command) 0 := by
  by_cases hq : countQ command ≤ 1
  · have hfq : findQuotes command = [] := fq_small hq 0
    show (if ((findQuotes command).foldl (rpnStep command (old.drop 1) new) ([], 0)).1.length > 0
        then _ else _) = _
    rw [hfq]
    show (if (0 : Nat) > 0 then _ else rPNIS (old.drop 1) new command)
      = rPNIS (old.drop 1) new (sub command 0 command.length)
    rw [if_neg (by omega), sub_zero_len]
  · obtain ⟨u, m, r, hs, hu, hm⟩ := two_quotes_decomp (show 2 ≤ countQ command by omega)
    subst hs
    have hfq := fq_shape hu hm r
    show (if ((findQuotes (u ++ '\'' :: (m ++ '\'' :: r))).foldl
          (rpnStep _ (old.drop 1) new) ([], 0)).1.length > 0 then _ else _) = _
    rw [hfq, List.foldl_cons]
    have hstep : rpnStep (u ++ '\'' :: (m ++ '\'' :: r)) (old.drop 1) new ([], 0)
          (u.length, u.length + m.length + 2)
        = (rPNIS (old.drop 1) new u ++ ('\'' :: (m ++ ['\''])),
            u.length + m.length + 2) := by
      show ([] ++ rPNIS (old.drop 1) new (sub (u ++ '\'' :: (m ++ '\'' :: r)) 0 u.length)
          ++ sub (u ++ '\'' :: (m ++ '\'' :: r)) u.length (u.length + m.length + 2),
          u.length + m.length + 2) = _
      rw [List.nil_append, sub_of_isPref, sub_shape_quoted]
    rw [hstep]
    have hne : rPNIS (old.drop 1) new u ++ ('\'' :: (m ++ ['\''])) ≠ [] := by
      simp
    rw [rpn_foldl_acc _ _ _ _ _ _ hne]
    simp only [procChunks]
    rw [sub_of_isPref, sub_shape_quoted]

theorem proc_shift (x t nm new : List Char) :
    ∀ (prs : List (Nat × Nat)) (pqe : Nat),
      procChunks (x ++ t) nm new (shiftPairs x.length prs) (x.length + pqe)
        = procChunks t nm new prs pqe := by
  intro prs
  induction prs with
  | nil =>
    intro pqe
    show rPNIS nm new (sub (x ++ t) (x.length + pqe) (x ++ t).length)
      = rPNIS nm new (sub t pqe t.length)
    rw [show (x ++ t).length = x.length + t.length by simp, sub_shift]
  | cons q rest ih =>
    intro pqe
    obtain ⟨a, b⟩ := q
    have ea : a + x.length = x.length + a := by omega
    have eb : b + x.length = x.length + b := by omega
    show rPNIS nm new (sub (x ++ t) (x.length + pqe) (a + x.length))
        ++ sub (x ++ t) (a + x.length) (b + x.length)
        ++ procChunks (x ++ t) nm new (shiftPairs x.length rest) (b + x.length)
      = rPNIS nm new (sub t pqe a) ++ sub t a b ++ procChunks t nm new rest b
    rw [ea, eb, sub_shift, sub_shift, ih b]

theorem shape_assoc (x m p : List Char) :
    x ++ ('\'' :: (m ++ ['\''])) ++ p = x ++ '\'' :: (m ++ '\'' :: p) := by
  simp

theorem pass_decomp {u m : List Char} (hu : countQ u = 0) (hm : countQ m = 0)
    (r old new : List Char) :
    replaceParameterName (u ++ '\'' :: (m ++ '\'' :: r)) old new
      = rPNIS (old.drop 1) new u ++ ('\'' :: (m ++ ['\'']))
          ++ replaceParameterName r old new := by
  rw [rpn_eq_proc, rpn_eq_proc, fq_shape hu hm r]
  simp only [procChunks]
  rw [sub_of_isPref, sub_shape_quoted]
  have hx : (u ++ '\'' :: (m ++ ['\''])).length = u.length + m.length + 2 := by
    simp; omega
  have hproc : procChunks (u ++ '\'' :: (m ++ '\'' :: r)) (old.drop 1) new
      (shiftPairs (u.length + m.length + 2) (findQuotes r)) (u.length + m.length + 2)
    = procChunks r (old.drop 1) new (findQuotes r) 0 := by
    have h := proc_shift (u ++ '\'' :: (m ++ ['\''])) r (old.drop 1) new (findQuotes r) 0
    rw [Nat.add_zero, hx] at h
    rw [← shape_assoc]
    exact h
  rw [hproc]

/-! ### Quote structure is preserved by a pass, and chunks rewrite chunk-wise -/

theorem pass_chunks_aux :
    ∀ (n : Nat) (s old new : List Char), s.length ≤ n → countQ new = 0 →
      unquotedChunks (replaceParameterName s old new)
          = (unquotedChunks s).map (rPNIS (old.drop 1) new)
        ∧ quotedChunks (replaceParameterName s old new) = quotedChunks s := by
  intro n
  induction n with
  | zero =>
    intro s old new hs hnew
    have hs0 : s = [] := List.length_eq_zero.mp (Nat.le_zero.mp hs)
    subst hs0
    have hq : countQ ([] : List Char) ≤ 1 := by
      show List.countP isQuote [] ≤ 1
      simp
    have hpass : replaceParameterName [] old new = rPNIS (old.drop 1) new [] := by
      rw [rpn_eq_proc]
      rfl
    have hc := rPNIS_countQ (old.drop 1) hnew ([] : List Char)
    obtain ⟨ha, hb⟩ := chunks_nil hq
    obtain ⟨ha', hb'⟩ := chunks_nil (show countQ (rPNIS (old.drop 1) new []) ≤ 1 by omega)
    rw [hpass, ha, hb, ha', hb']
    exact ⟨by simp, rfl⟩
  | succ n ihn =>
    intro s old new hs hnew
    by_cases hq : countQ s ≤ 1
    · have hfq : findQuotes s = [] := fq_small hq 0
      have hpass : replaceParameterName s old new = rPNIS (old.drop 1) new s := by
        rw [rpn_eq_proc, hfq]
        show rPNIS (old.drop 1) new (sub s 0 s.length) = _
        rw [sub_zero_len]
      have hc := rPNIS_countQ (old.drop 1) hnew s
      obtain ⟨ha, hb⟩ := chunks_nil hq
      obtain ⟨ha', hb'⟩ := chunks_nil (show countQ (rPNIS (old.drop 1) new s) ≤ 1 by omega)
      rw [hpass, ha, hb, ha', hb']
      exact ⟨by simp, rfl⟩
    · obtain ⟨u, m, r, rfl, hu, hm⟩ := two_quotes_decomp (show 2 ≤ countQ s by omega)
      have hrlen : r.length ≤ n := by
        simp only [List.length_append, List.length_cons] at hs
        omega
      obtain ⟨ih1, ih2⟩ := ihn r old new hrlen hnew
      have hU : countQ (rPNIS (old.drop 1) new u) = 0 := rPNIS_quotefree hu hnew
      have hpass := pass_decomp hu hm r old new
      have hshape : rPNIS (old.drop 1) new u ++ ('\'' :: (m ++ ['\'']))
            ++ replaceParameterName r old new
          = rPNIS (old.drop 1) new u
              ++ '\'' :: (m ++ '\'' :: replaceParameterName r old new) :=
        shape_assoc _ _ _
      obtain ⟨hd1, hd2⟩ := chunks_decomp hU hm (replaceParameterName r old new)
      obtain ⟨he1, he2⟩ := chunks_decomp hu hm r
      constructor
      · rw [hpass, hshape, hd1, he1, ih1]
        rfl
      · rw [hpass, hshape, hd2, he2, ih2]

theorem pass_chunks {new : List Char} (hnew : countQ new = 0) (s old : List Char) :
    unquotedChunks (replaceParameterName s old new)
        = (unquotedChunks s).map (rPNIS (old.drop 1) new)
      ∧ quotedChunks (replaceParameterName s old new) = quotedChunks s :=
  pass_chunks_aux s.length s old new (le_refl _) hnew

theorem interleave_chunks_aux :
    ∀ (n : Nat) (s : List Char), s.length ≤ n →
      interleave (unquotedChunks s) (quotedChunks s) = s := by
  intro n
  induction n with
  | zero =>
    intro s hs
    have hs0 : s = [] := List.length_eq_zero.mp (Nat.le_zero.mp hs)
    subst hs0
    rfl
  | succ n ihn =>
    intro s hs
    by_cases hq : countQ s ≤ 1
    · obtain ⟨h1, h2⟩ := chunks_nil hq
      rw [h1, h2]
      rfl
    · obtain ⟨u, m, r, rfl, hu, hm⟩ := two_quotes_decomp (show 2 ≤ countQ s by omega)
      obtain ⟨h1, h2⟩ := chunks_decomp hu hm r
      rw [h1, h2]
      show u ++ ('\'' :: (m ++ ['\''])) ++ interleave (unquotedChunks r) (quotedChunks r) = _
      have hrlen : r.length ≤ n := by
        simp only [List.length_append, List.length_cons] at hs
        omega
      rw [ihn r hrlen]
      simp

theorem interleave_chunks (s : List Char) :
    interleave (unquotedChunks s) (quotedChunks s) = s :=
  interleave_chunks_aux s.length s (le_refl _)

/-! ### Replacement tokens are quote-free; decimal rendering is injective -/

theorem digitChar_not_quote : ∀ d, d < 10 → isQuote (digitChar d) = false := by
  decide

theorem countQ_natCharsAux : ∀ (fuel n : Nat), countQ (natCharsAux fuel n) = 0 := by
  intro fuel
  induction fuel with
  | zero => intro n; rfl
  | succ f ih =>
    intro n
    by_cases h : n = 0
    · simp [natCharsAux, h]
      rfl
    · have hd : isQuote (digitChar (n % 10)) = false :=
        digitChar_not_quote _ (Nat.mod_lt _ (by omega))
      rw [show natCharsAux (f + 1) n
          = natCharsAux f (n / 10) ++ [digitChar (n % 10)] by simp [natCharsAux, h]]
      rw [countQ_append, ih]
      simp [countQ, List.countP_cons, hd]

theorem countQ_natToChars (n : Nat) : countQ (natToChars n) = 0 := by
  unfold natToChars
  by_cases h : n = 0
  · rw [if_pos h]
    decide
  · rw [if_neg h]
    exact countQ_natCharsAux (n + 1) n

theorem isQuote_dollar : isQuote '$' = false := by decide

theorem isQuote_colon : isQuote ':' = false := by decide

theorem countQ_paramToken (i : Nat) (p : ParamObj) (hp : countQ p.customTypeName = 0) :
    countQ (paramToken i p) = 0 := by
  unfold paramToken castSuffix
  have h1 := countQ_natToChars (i + 1)
  by_cases h : p.customTypeName = []
  · rw [if_pos h]
    simp [countQ_append, countQ_cons, isQuote_dollar, isQuote_colon, h1]
  · rw [if_neg h]
    simp [countQ_append, countQ_cons, isQuote_dollar, isQuote_colon, h1, hp]

theorem adjust_chunks :
    ∀ (params : List ParamObj) (i : Nat) (s : List Char),
      (∀ p ∈ params, countQ p.customTypeName = 0) →
      unquotedChunks (adjustCommandAux s params i)
          = (unquotedChunks s).map (rewriteChunkSeq i params)
        ∧ quotedChunks (adjustCommandAux s params i) = quotedChunks s := by
  intro params
  induction params with
  | nil =>
    intro i s _
    constructor
    · have hfun : rewriteChunkSeq i ([] : List ParamObj) = fun c => c := by
        funext c
        rfl
      rw [hfun]
      simp [adjustCommandAux]
    · rfl
  | cons p rest ih =>
    intro i s hq
    have hp : countQ p.customTypeName = 0 := hq p (List.mem_cons_self _ _)
    have hrest : ∀ q ∈ rest, countQ q.customTypeName = 0 :=
      fun q hq' => hq q (List.mem_cons_of_mem _ hq')
    have htok : countQ (paramToken i p) = 0 := countQ_paramToken i p hp
    obtain ⟨ihu, ihq⟩ := ih (i + 1) (replaceParameterName s p.name (paramToken i p)) hrest
    obtain ⟨pu, pq⟩ := pass_chunks htok s p.name
    have hfun : (rewriteChunkSeq (i + 1) rest) ∘ (rPNIS (p.name.drop 1) (paramToken i p))
        = rewriteChunkSeq i (p :: rest) := by
      funext c
      rfl
    constructor
    · show unquotedChunks
          (adjustCommandAux (replaceParameterName s p.name (paramToken i p)) rest (i + 1)) = _
      rw [ihu, pu, List.map_map, hfun]
    · show quotedChunks
          (adjustCommandAux (replaceParameterName s p.name (paramToken i p)) rest (i + 1)) = _
      rw [ihq, pq]

theorem digitChar_val : ∀ d, d < 10 → (digitChar d).toNat - 48 = d := by
  decide

theorem charsToNat_aux : ∀ (fuel n acc : Nat), n ≤ fuel →
    List.foldl (fun a c => a * 10 + (c.toNat - 48)) acc (natCharsAux fuel n)
      = acc * 10 ^ (natCharsAux fuel n).length + n := by
  intro fuel
  induction fuel with
  | zero =>
    intro n acc h
    have h0 : n = 0 := by omega
    subst h0
    simp [natCharsAux]
  | succ f ih =>
    intro n acc h
    by_cases h0 : n = 0
    · subst h0
      simp [natCharsAux]
    · have hstep : natCharsAux (f + 1) n
          = natCharsAux f (n / 10) ++ [digitChar (n % 10)] := by
        simp [natCharsAux, h0]
      have hdiv : n / 10 ≤ f := by
        have := Nat.div_lt_self (by omega : 0 < n) (by omega : 1 < 10)
        omega
      rw [hstep, List.foldl_append, ih (n / 10) acc hdiv]
      have hval : (digitChar (n % 10)).toNat - 48 = n % 10 :=
        digitChar_val _ (Nat.mod_lt _ (by omega))
      show (acc * 10 ^ (natCharsAux f (n / 10)).length + n / 10) * 10
            + ((digitChar (n % 10)).toNat - 48)
          = acc * 10 ^ (natCharsAux f (n / 10) ++ [digitChar (n % 10)]).length + n
      rw [hval]
      have hlen : (natCharsAux f (n / 10) ++ [digitChar (n % 10)]).length
          = (natCharsAux f (n / 10)).length + 1 := by
        simp
      rw [hlen]
      have hring : (acc * 10 ^ (natCharsAux f (n / 10)).length + n / 10) * 10 + n % 10
          = acc * (10 ^ (natCharsAux f (n / 10)).length * 10) + (10 * (n / 10) + n % 10) := by
        ring
      rw [hring, Nat.div_add_mod, ← pow_succ]

theorem charsToNat_natToChars (n : Nat) : charsToNat (natToChars n) = n := by
  unfold natToChars charsToNat
  by_cases h : n = 0
  · rw [if_pos h, h]
    decide
  · rw [if_neg h]
    have hfold := charsToNat_aux (n + 1) n 0 (by omega)
    rw [hfold]
    ring

theorem natToChars_inj {a b : Nat} (h : natToChars a = natToChars b) : a = b := by
  have ha := charsToNat_natToChars a
  rw [h, charsToNat_natToChars b] at ha
  exact ha.symm

/-! ### The parameter-binding loop -/

theorem bindParams_nil (sid : Nat) (store : Store) :
    bindParams sid store [] = .ok (store, []) := rfl

theorem bindParams_none (sid : Nat) (store : Store) (rest : List (Option Nat)) :
    bindParams sid store (none :: rest) = .error (.nilParameter, store) := rfl

theorem bindParams_some (sid : Nat) (store : Store) (pid : Nat) (rest : List (Option Nat)) :
    bindParams sid store (some pid :: rest)
      = match store[pid]? with
        | none => .error (.nilParameter, store)
        | some p =>
          if p.stmt.isSome then .error (.alreadyBound p.name, store)
          else
            match bindParams sid (store.set pid { p with stmt := some sid }) rest with
            | .error e => .error e
            | .ok (store', objs) => .ok (store', { p with stmt := some sid } :: objs) := rfl

theorem getElem_some_lt {store : Store} {pid : Nat} {p : ParamObj}
    (h : store[pid]? = some p) : pid < store.length := by
  by_contra hge
  rw [List.getElem?_eq_none (by omega)] at h
  cases h

theorem set_self_get {store : Store} {pid : Nat} (p : ParamObj)
    (h : pid < store.length) : (store.set pid p)[pid]? = some p :=
  List.getElem?_set_eq_of_lt p h

theorem bindParams_red_none (sid : Nat) (store : Store) (pid : Nat)
    (rest : List (Option Nat)) (hget : store[pid]? = none) :
    bindParams sid store (some pid :: rest) = .error (.nilParameter, store) := by
  rw [bindParams_some, hget]

theorem bindParams_red_bound (sid : Nat) (store : Store) (pid : Nat)
    (rest : List (Option Nat)) {q : ParamObj} (hget : store[pid]? = some q)
    (hqs : q.stmt.isSome = true) :
    bindParams sid store (some pid :: rest) = .error (.alreadyBound q.name, store) := by
  rw [bindParams_some, hget]
  show (if q.stmt.isSome = true then _ else _) = _
  rw [if_pos hqs]

theorem bindParams_red_free (sid : Nat) (store : Store) (pid : Nat)
    (rest : List (Option Nat)) {q : ParamObj} (hget : store[pid]? = some q)
    (hqs : q.stmt.isSome = false) :
    bindParams sid store (some pid :: rest)
      = match bindParams sid (store.set pid { q with stmt := some sid }) rest with
        | .error e => .error e
        | .ok (store', objs) => .ok (store', { q with stmt := some sid } :: objs) := by
  rw [bindParams_some, hget]
  show (if q.stmt.isSome = true then _ else _) = _
  rw [if_neg (by rw [hqs]; exact Bool.false_ne_true)]

theorem bind_mono : ∀ (prefs : List (Option Nat)) (store : Store) (sid pid : Nat)
    (p : ParamObj), store[pid]? = some p → p.stmt.isSome = true →
    ∃ p', (bindResultStore (bindParams sid store prefs))[pid]? = some p'
      ∧ p'.stmt.isSome = true := by
  intro prefs
  induction prefs with
  | nil =>
    intro store sid pid p hget hsome
    exact ⟨p, hget, hsome⟩
  | cons x rest ih =>
    intro store sid pid p hget hsome
    cases x with
    | none =>
      rw [bindParams_none]
      exact ⟨p, hget, hsome⟩
    | some pid' =>
      cases hget' : store[pid']? with
      | none =>
        rw [bindParams_red_none sid store pid' rest hget']
        exact ⟨p, hget, hsome⟩
      | some q =>
        cases hqs : q.stmt.isSome with
        | true =>
          rw [bindParams_red_bound sid store pid' rest hget' hqs]
          exact ⟨p, hget, hsome⟩
        | false =>
          rw [bindParams_red_free sid store pid' rest hget' hqs]
          have hpres : ∃ r, (store.set pid' { q with stmt := some sid })[pid]? = some r
              ∧ r.stmt.isSome = true := by
            by_cases hp : pid' = pid
            · subst hp
              exact ⟨{ q with stmt := some sid },
                set_self_get _ (getElem_some_lt hget'), by simp⟩
            · exact ⟨p, by rw [List.getElem?_set_ne hp]; exact hget, hsome⟩
          obtain ⟨r, hr, hrs⟩ := hpres
          obtain ⟨p', hp', hps⟩ :=
            ih (store.set pid' { q with stmt := some sid }) sid pid r hr hrs
          cases hbr : bindParams sid (store.set pid' { q with stmt := some sid }) rest with
          | error e =>
            rw [hbr] at hp'
            exact ⟨p', hp', hps⟩
          | ok so =>
            rw [hbr] at hp'
            obtain ⟨store', objs⟩ := so
            exact ⟨p', hp', hps⟩

theorem bind_ok_binds : ∀ (prefs : List (Option Nat)) (store : Store)
    (sid : Nat) (store' : Store) (objs : List ParamObj),
    bindParams sid store prefs = .ok (store', objs) →
    ∀ pid, some pid ∈ prefs → ∃ p', store'[pid]? = some p' ∧ p'.stmt.isSome = true := by
  intro prefs
  induction prefs with
  | nil => intro store sid store' objs _ pid hmem; simp at hmem
  | cons x rest ih =>
    intro store sid store' objs hok pid hmem
    cases x with
    | none => rw [bindParams_none] at hok; cases hok
    | some pid' =>
      cases hget' : store[pid']? with
      | none => rw [bindParams_red_none sid store pid' rest hget'] at hok; cases hok
      | some q =>
        cases hqs : q.stmt.isSome with
        | true =>
          rw [bindParams_red_bound sid store pid' rest hget' hqs] at hok
          cases hok
        | false =>
          rw [bindParams_red_free sid store pid' rest hget' hqs] at hok
          cases hbr : bindParams sid (store.set pid' { q with stmt := some sid }) rest with
          | error e => rw [hbr] at hok; cases hok
          | ok so =>
            obtain ⟨st2, objs2⟩ := so
            rw [hbr] at hok
            have hst : st2 = store' := by
              simp only [Except.ok.injEq, Prod.mk.injEq] at hok
              exact hok.1
            subst hst
            rcases List.mem_cons.mp hmem with hhead | htail
            · have hpid : pid' = pid := by
                simpa using hhead.symm
              subst hpid
              have hb := bind_mono rest (store.set pid' { q with stmt := some sid }) sid pid'
                { q with stmt := some sid } (set_self_get _ (getElem_some_lt hget')) (by simp)
              rw [hbr] at hb
              exact hb
            · exact ih _ sid _ _ hbr pid htail

theorem bind_no_ok : ∀ (prefs : List (Option Nat)) (store : Store) (sid : Nat),
    (none ∈ prefs ∨ ∃ pid p, some pid ∈ prefs ∧ store[pid]? = some p
      ∧ p.stmt.isSome = true) →
    ∀ res, bindParams sid store prefs ≠ .ok res := by
  intro prefs
  induction prefs with
  | nil =>
    intro store sid h res
    rcases h with h | ⟨pid, p, h, _, _⟩ <;> simp at h
  | cons x rest ih =>
    intro store sid h res hok
    cases x with
    | none => rw [bindParams_none] at hok; cases hok
    | some pid' =>
      cases hget' : store[pid']? with
      | none => rw [bindParams_red_none sid store pid' rest hget'] at hok; cases hok
      | some q =>
        cases hqs : q.stmt.isSome with
        | true =>
          rw [bindParams_red_bound sid store pid' rest hget' hqs] at hok
          cases hok
        | false =>
          rw [bindParams_red_free sid store pid' rest hget' hqs] at hok
          cases hbr : bindParams sid (store.set pid' { q with stmt := some sid }) rest with
          | error e => rw [hbr] at hok; cases hok
          | ok so =>
            have hcond : none ∈ rest ∨ ∃ pid p,
                some pid ∈ rest ∧ (store.set pid' { q with stmt := some sid })[pid]? = some p
                  ∧ p.stmt.isSome = true := by
              rcases h with hnone | ⟨pid, p, hmem, hget, hsome⟩
              · left
                rcases List.mem_cons.mp hnone with hh | ht
                · cases hh
                · exact ht
              · rcases List.mem_cons.mp hmem with hh | ht
                · have hpid : pid = pid' := by simpa using hh
                  subst hpid
                  rw [hget'] at hget
                  have hq : q = p := by simpa using hget
                  subst hq
                  rw [hqs] at hsome
                  cases hsome
                · right
                  by_cases hp : pid' = pid
                  · subst hp
                    exact ⟨pid', { q with stmt := some sid }, ht,
                      set_self_get _ (getElem_some_lt hget'), by simp⟩
                  · exact ⟨pid, p, ht, by rw [List.getElem?_set_ne hp]; exact hget, hsome⟩
            exact ih _ sid hcond so hbr

theorem bind_append_ok {pre : List (Option Nat)} {store storeMid : Store} {sid : Nat}
    {objs : List ParamObj} (rest' : List (Option Nat))
    (hpre : bindParams sid store pre = .ok (storeMid, objs)) :
    bindParams sid store (pre ++ rest')
      = match bindParams sid storeMid rest' with
        | .error e => .error e
        | .ok so' => .ok (so'.1, objs ++ so'.2) := by
  induction pre generalizing store objs with
  | nil =>
    rw [bindParams_nil] at hpre
    simp only [Except.ok.injEq, Prod.mk.injEq] at hpre
    obtain ⟨hst, hobjs⟩ := hpre
    rw [List.nil_append, ← hst, ← hobjs]
    generalize bindParams sid store rest' = R
    cases R with
    | error e => rfl
    | ok so' => simp
  | cons x pre' ih =>
    cases x with
    | none =>
      rw [bindParams_none] at hpre
      cases hpre
    | some pid' =>
      cases hget' : store[pid']? with
      | none =>
        rw [bindParams_red_none sid store pid' pre' hget'] at hpre
        cases hpre
      | some q =>
        cases hqs : q.stmt.isSome with
        | true =>
          rw [bindParams_red_bound sid store pid' pre' hget' hqs] at hpre
          cases hpre
        | false =>
          rw [bindParams_red_free sid store pid' pre' hget' hqs] at hpre
          rw [List.cons_append,
            bindParams_red_free sid store pid' (pre' ++ rest') hget' hqs]
          cases hbr : bindParams sid (store.set pid' { q with stmt := some sid }) pre' with
          | error e =>
            rw [hbr] at hpre
            simp at hpre
          | ok so =>
            obtain ⟨st, objs0⟩ := so
            rw [hbr] at hpre
            simp only [Except.ok.injEq, Prod.mk.injEq] at hpre
            obtain ⟨hst, hobjs⟩ := hpre
            rw [hst] at hbr
            rw [ih hbr, ← hobjs]
            generalize bindParams sid storeMid rest' = R
            cases R with
            | error e => rfl
            | ok so' =>
              obtain ⟨st2, objs2⟩ := so'
              simp

theorem bind_prefix_bound {pre : List (Option Nat)} {x : Option Nat}
    {rest : List (Option Nat)} {store : Store} {sid : Nat} {storeMid : Store}
    {objs : List ParamObj} {f : ConstructFault} {st' : Store}
    (hpre : bindParams sid store pre = .ok (storeMid, objs))
    (herr : bindParams sid store (pre ++ x :: rest) = .error (f, st')) :
    ∀ pid, some pid ∈ pre → ∃ p', st'[pid]? = some p' ∧ p'.stmt.isSome = true := by
  intro pid hmem
  rw [bind_append_ok (x :: rest) hpre] at herr
  obtain ⟨p1, hp1, hs1⟩ := bind_ok_binds pre store sid storeMid objs hpre pid hmem
  have hmono := bind_mono (x :: rest) storeMid sid pid p1 hp1 hs1
  cases hbr : bindParams sid storeMid (x :: rest) with
  | error e =>
    obtain ⟨e1, e2⟩ := e
    rw [hbr] at herr hmono
    simp only [Except.error.injEq, Prod.mk.injEq] at herr
    have h2 : e2 = st' := herr.2
    rw [h2] at hmono
    exact hmono
  | ok so =>
    rw [hbr] at herr
    simp at herr

/-! ### Statement construction and construction sequences -/

theorem newStatement_error_of_bind {w : World} {command : List Char}
    {prefs : List (Option Nat)} {f : ConstructFault} {st' : Store}
    (h : bindParams w.nextSid w.store prefs = .error (f, st')) :
    newStatement w command prefs
      = .error (f, { w with store := st', nextSid := w.nextSid + 1 }) := by
  unfold newStatement
  dsimp only
  rw [h]

theorem newStatement_ok_of_bind {w : World} {command : List Char}
    {prefs : List (Option Nat)} {store' : Store} {objs : List ParamObj}
    (h : bindParams w.nextSid w.store prefs = .ok (store', objs)) :
    newStatement w command prefs
      = .ok ({ store := store'
               conn := { nextStatementId := w.conn.nextStatementId + 1
                         nextPortalId := w.conn.nextPortalId + 1 }
               nextSid := w.nextSid + 1 },
             { sid := w.nextSid
               name := "stmt".toList ++ natToChars w.conn.nextStatementId
               portalName := "prtl".toList ++ natToChars w.conn.nextPortalId
               command := command
               actualCommand := adjustCommand command objs
               isClosed := false
               params := prefs.filterMap id }) := by
  unfold newStatement
  dsimp only
  rw [h]

theorem newStatement_error_facts {w : World} {command : List Char}
    {prefs : List (Option Nat)} {f : ConstructFault} {w' : World}
    (h : newStatement w command prefs = .error (f, w')) :
    w'.conn = w.conn ∧ bindParams w.nextSid w.store prefs = .error (f, w'.store) := by
  cases hb : bindParams w.nextSid w.store prefs with
  | error e =>
    obtain ⟨f0, st0⟩ := e
    rw [newStatement_error_of_bind hb] at h
    simp only [Except.error.injEq, Prod.mk.injEq] at h
    obtain ⟨hf, hw⟩ := h
    subst hf
    subst hw
    exact ⟨rfl, rfl⟩
  | ok so =>
    obtain ⟨store', objs⟩ := so
    rw [newStatement_ok_of_bind hb] at h
    cases h

theorem newStatement_ok_facts {w : World} {command : List Char}
    {prefs : List (Option Nat)} {w' : World} {stmt : Statement}
    (h : newStatement w command prefs = .ok (w', stmt)) :
    stmt.name = "stmt".toList ++ natToChars w.conn.nextStatementId
    ∧ stmt.portalName = "prtl".toList ++ natToChars w.conn.nextPortalId
    ∧ w'.conn.nextStatementId = w.conn.nextStatementId + 1
    ∧ w'.conn.nextPortalId = w.conn.nextPortalId + 1
    ∧ (∃ objs, bindParams w.nextSid w.store prefs = .ok (w'.store, objs)) := by
  cases hb : bindParams w.nextSid w.store prefs with
  | error e =>
    obtain ⟨f0, st0⟩ := e
    rw [newStatement_error_of_bind hb] at h
    cases h
  | ok so =>
    obtain ⟨store', objs⟩ := so
    rw [newStatement_ok_of_bind hb] at h
    simp only [Except.ok.injEq, Prod.mk.injEq] at h
    obtain ⟨hw, hs⟩ := h
    subst hw
    subst hs
    exact ⟨rfl, rfl, rfl, rfl, objs, rfl⟩

theorem newStatement_faults {w : World} (command : List Char)
    {prefs : List (Option Nat)}
    (h : ∀ res, bindParams w.nextSid w.store prefs ≠ .ok res) :
    ∃ f w', newStatement w command prefs = .error (f, w') := by
  cases hb : bindParams w.nextSid w.store prefs with
  | error e =>
    obtain ⟨f, st⟩ := e
    exact ⟨f, _, newStatement_error_of_bind hb⟩
  | ok so => exact absurd hb (h so)

theorem runConstructions_unfold (w : World) (r : ConstructReq)
    (rest : List ConstructReq) :
    runConstructions w (r :: rest)
      = match newStatement w r.1 r.2 with
        | .error (_, w2) => runConstructions w2 rest
        | .ok (w2, stmt) =>
          match runConstructions w2 rest with
          | (stmts, wEnd) => (stmt :: stmts, wEnd) := rfl

theorem runConstructions_cons_error {w : World} {r : ConstructReq}
    {f : ConstructFault} {w' : World} (rest : List ConstructReq)
    (h : newStatement w r.1 r.2 = .error (f, w')) :
    runConstructions w (r :: rest) = runConstructions w' rest := by
  rw [runConstructions_unfold, h]

theorem runConstructions_cons_ok {w : World} {r : ConstructReq}
    {w' : World} {stmt : Statement} (rest : List ConstructReq)
    (h : newStatement w r.1 r.2 = .ok (w', stmt)) :
    runConstructions w (r :: rest)
      = (stmt :: (runConstructions w' rest).1, (runConstructions w' rest).2) := by
  rw [runConstructions_unfold, h]

theorem range_map_succ_shift (pre : List Char) (base k : Nat) :
    (List.range (k + 1)).map (fun j => pre ++ natToChars (base + j))
      = (pre ++ natToChars base)
          :: (List.range k).map (fun j => pre ++ natToChars (base + 1 + j)) := by
  rw [List.range_succ_eq_map, List.map_cons, List.map_map]
  congr 1
  apply List.map_congr_left
  intro a _
  show pre ++ natToChars (base + (a + 1)) = pre ++ natToChars (base + 1 + a)
  have e : base + (a + 1) = base + 1 + a := by omega
  rw [e]

theorem runs_names : ∀ (reqs : List ConstructReq) (w : World),
    (runConstructions w reqs).1.map (fun st => st.name)
        = (List.range (runConstructions w reqs).1.length).map
            (fun j => "stmt".toList ++ natToChars (w.conn.nextStatementId + j))
    ∧ (runConstructions w reqs).1.map (fun st => st.portalName)
        = (List.range (runConstructions w reqs).1.length).map
            (fun j => "prtl".toList ++ natToChars (w.conn.nextPortalId + j))
    ∧ (runConstructions w reqs).2.conn.nextStatementId
        = w.conn.nextStatementId + (runConstructions w reqs).1.length
    ∧ (runConstructions w reqs).2.conn.nextPortalId
        = w.conn.nextPortalId + (runConstructions w reqs).1.length := by
  intro reqs
  induction reqs with
  | nil =>
    intro w
    refine ⟨rfl, rfl, ?_, ?_⟩ <;> simp [runConstructions]
  | cons r rest ih =>
    intro w
    cases hn : newStatement w r.1 r.2 with
    | error ew =>
      obtain ⟨f, w'⟩ := ew
      obtain ⟨hconn, _⟩ := newStatement_error_facts hn
      have hrun := runConstructions_cons_error rest hn
      obtain ⟨ih1, ih2, ih3, ih4⟩ := ih w'
      rw [hconn] at ih1 ih2 ih3 ih4
      rw [hrun]
      exact ⟨ih1, ih2, ih3, ih4⟩
    | ok pair =>
      obtain ⟨w', stmt⟩ := pair
      obtain ⟨hname, hportal, hc1, hc2, _⟩ := newStatement_ok_facts hn
      have hrun := runConstructions_cons_ok rest hn
      obtain ⟨ih1, ih2, ih3, ih4⟩ := ih w'
      rw [hc1] at ih1 ih3
      rw [hc2] at ih2 ih4
      rw [hrun]
      refine ⟨?_, ?_, ?_, ?_⟩
      · rw [List.map_cons, ih1, List.length_cons, range_map_succ_shift, hname]
      · rw [List.map_cons, ih2, List.length_cons, range_map_succ_shift, hportal]
      · rw [ih3]
        simp
        omega
      · rw [ih4]
        simp
        omega

/-! ### Remaining helper lemmas for the claim theorems -/

theorem adjustAux_append : ∀ (pre : List ParamObj) (p : ParamObj) (post : List ParamObj)
    (s : List Char) (i : Nat),
    adjustCommandAux s (pre ++ p :: post) i
      = adjustCommandAux
          (replaceParameterName (adjustCommandAux s pre i) p.name
            (paramToken (i + pre.length) p))
          post (i + pre.length + 1) := by
  intro pre
  induction pre with
  | nil =>
    intro p post s i
    show adjustCommandAux s (p :: post) i
      = adjustCommandAux (replaceParameterName s p.name (paramToken (i + 0) p)) post (i + 0 + 1)
    rw [Nat.add_zero]
    rfl
  | cons q pre' ih =>
    intro p post s i
    show adjustCommandAux (replaceParameterName s q.name (paramToken i q))
        (pre' ++ p :: post) (i + 1) = _
    rw [ih]
    have e : i + 1 + pre'.length = i + (pre'.length + 1) := by omega
    rw [e]
    rfl

theorem findMatches_boundary {nm s : List Char} {a b : Nat}
    (h : (a, b) ∈ findMatches nm s) :
    (∃ d, s[a]? = some d ∧ isDelim d = true)
    ∧ (∃ c, s[a + 1]? = some c ∧ isSigil c = true)
    ∧ (s.drop (a + 2)).take nm.length = nm
    ∧ ((b = a + nm.length + 3 ∧ ∃ t, s[b - 1]? = some t ∧ isDelim t = true)
        ∨ (b = a + nm.length + 2 ∧ b = s.length)) :=
  fm_boundary nm s s.length 0 (by omega) a b h

theorem stmt_ne_prtl (x y : List Char) : "stmt".toList ++ x ≠ "prtl".toList ++ y := by
  intro hcontra
  have h0 : ("stmt".toList ++ x).head? = some 's' := rfl
  have h1 : ("prtl".toList ++ y).head? = some 'p' := rfl
  rw [hcontra, h1] at h0
  exact absurd h0 (by decide)

theorem append_natToChars_inj (pre : List Char) :
    Function.Injective (fun j => pre ++ natToChars j) := by
  intro a b hab
  exact natToChars_inj (List.append_cancel_left hab)

/-! ### Claim C1 -/

/-- C1 counterexample: the command `" :a 'q :b w' "` has exactly one balanced
single-quoted region, `'q :b w'`, yet rewriting with a first parameter whose
customTypeName contains a single quote (`x' y`) makes the second pass see a
different quote structure, and the text inside the original quoted region is
rewritten: the region no longer occurs in the output, so it was not copied
verbatim, contradicting the claim as stated ("for every command string and
every parameter list"). -/
theorem c1_counterexample :
    quotedChunks (" :a 'q :b w' ".toList) = ["'q :b w'".toList]
    ∧ hasSub ("'q :b w'".toList)
        (adjustCommand (" :a 'q :b w' ".toList)
          [⟨":a".toList, "x' y".toList, none⟩, ⟨":b".toList, [], none⟩]) = false
    ∧ adjustCommand (" :a 'q :b w' ".toList)
        [⟨":a".toList, "x' y".toList, none⟩, ⟨":b".toList, [], none⟩]
      = " $1::x' y 'q $2 w' ".toList := by
  decide

/-- C1 (amended): when no parameter's customTypeName contains a single-quote
character, the rewritten command is the original's unquoted chunks, each
rewritten parameter by parameter, interleaved with the original balanced
single-quoted regions copied verbatim and never scanned for placeholders; in
particular `rewrite("select ':id' as x", [:id])` returns the command
unchanged. -/
theorem c1_quoted_regions_verbatim (command : List Char) (params : List ParamObj)
    (h : ∀ p ∈ params, countQ p.customTypeName = 0) :
    adjustCommand command params
      = interleave ((unquotedChunks command).map (rewriteChunkSeq 0 params))
          (quotedChunks command)
    ∧ adjustCommand ("select ':id' as x".toList) [⟨":id".toList, [], none⟩]
      = "select ':id' as x".toList := by
  constructor
  · obtain ⟨hu, hq⟩ := adjust_chunks params 0 command h
    have hre := interleave_chunks (adjustCommandAux command params 0)
    rw [hu, hq] at hre
    exact hre.symm
  · decide

theorem c1_witness :
    (∀ p ∈ [(⟨":id".toList, [], none⟩ : ParamObj)], countQ p.customTypeName = 0)
    ∧ (adjustCommand ("select ':id' as x".toList) [⟨":id".toList, [], none⟩]
        = interleave
            ((unquotedChunks ("select ':id' as x".toList)).map
              (rewriteChunkSeq 0 [⟨":id".toList, [], none⟩]))
            (quotedChunks ("select ':id' as x".toList))
      ∧ adjustCommand ("select ':id' as x".toList) [⟨":id".toList, [], none⟩]
        = "select ':id' as x".toList) :=
  ⟨by decide, c1_quoted_regions_verbatim ("select ':id' as x".toList)
    [⟨":id".toList, [], none⟩] (by decide)⟩

/-! ### Claim C2 -/

/-- C2 counterexample: in `"(:id,:id)"` the two occurrences of `:id` are
adjacent, separated by the single comma; the first match consumes the comma
as its trailing delimiter, so the non-overlapping scan cannot match the
second occurrence, which survives unreplaced — the claim's `"($1,$1)"` is not
produced. -/
theorem c2_counterexample :
    adjustCommand ("(:id,:id)".toList) [⟨":id".toList, [], none⟩] = "($1,:id)".toList
    ∧ adjustCommand ("(:id,:id)".toList) [⟨":id".toList, [], none⟩] ≠ "($1,$1)".toList := by
  decide

/-- C2 (amended): every occurrence matched by the left-to-right,
non-overlapping scan is replaced with the identical token (the chunk rewrite
is the interleaving of its source segments with one copy of the same
replacement per match, and the whole-command rewrite applies that chunk
rewrite between the quoted regions); occurrences whose leading delimiter was
already consumed by the preceding match — e.g. adjacent occurrences separated
by a single comma — are not matched.  Occurrences separated by at least two
delimiter characters are all replaced with the identical token, as in
`" :id + :id "`. -/
theorem c2_identical_tokens (nm new s command old : List Char) :
    rPNIS nm new s
      = interleave (segmentsOf s (findMatches nm s) 1)
          (List.replicate (findMatches nm s).length new)
    ∧ replaceParameterName command old new
      = procChunks command (old.drop 1) new (findQuotes command) 0
    ∧ adjustCommand (" :id + :id ".toList) [⟨":id".toList, [], none⟩]
      = " $1 + $1 ".toList :=
  ⟨ws_interleave s new (findMatches nm s) 1, rpn_eq_proc command old new, by decide⟩

/-! ### Claim C3 -/

/-- C3 counterexample: a placeholder at the very start of the command
(preceded by nothing) is NOT matched — the pattern requires a delimiter
character before the sigil, with no string-start alternative — so
`":id x"` is returned unchanged where the claim predicts `"$1 x"`; likewise
`'.'` is a non-identifier character but not in the delimiter class, so
`"a.:id.b"` is returned unchanged where the claim predicts a match. -/
theorem c3_counterexample :
    adjustCommand (":id x".toList) [⟨":id".toList, [], none⟩] = ":id x".toList
    ∧ ":id x".toList ≠ "$1 x".toList
    ∧ adjustCommand ("a.:id.b".toList) [⟨":id".toList, [], none⟩] = "a.:id.b".toList
    ∧ "a.:id.b".toList ≠ "a.$1.b".toList := by
  decide

/-- C3 (amended): an occurrence counts as a match only when immediately
preceded by one of the delimiter characters `- | \n \r \t , ) ( ; = + / < >`
or space (so never at the very start of the string) and immediately followed
by one of those characters or the end of the string, with the parameter name
(sigil dropped) read verbatim in between; matches are found left to right
without overlap.  `:id` is never matched inside `:identifier`:
rewriting `"where id = :identifier "` with `[:id, :identifier]` yields
`"where id = $2 "`, and with `[:id]` alone leaves the command unchanged. -/
theorem c3_boundary (nm s : List Char) (a b : Nat) (h : (a, b) ∈ findMatches nm s) :
    ((∃ d, s[a]? = some d ∧ isDelim d = true)
    ∧ (∃ c, s[a + 1]? = some c ∧ isSigil c = true)
    ∧ (s.drop (a + 2)).take nm.length = nm
    ∧ ((b = a + nm.length + 3 ∧ ∃ t, s[b - 1]? = some t ∧ isDelim t = true)
        ∨ (b = a + nm.length + 2 ∧ b = s.length)))
    ∧ adjustCommand ("where id = :identifier ".toList)
        [⟨":id".toList, [], none⟩, ⟨":identifier".toList, [], none⟩]
      = "where id = $2 ".toList
    ∧ adjustCommand ("where id = :identifier ".toList) [⟨":id".toList, [], none⟩]
      = "where id = :identifier ".toList :=
  ⟨findMatches_boundary h, by decide, by decide⟩

theorem c3_witness :
    ((0, 5) ∈ findMatches ("id".toList) (" :id ".toList))
    ∧ (((∃ d, (" :id ".toList)[0]? = some d ∧ isDelim d = true)
      ∧ (∃ c, (" :id ".toList)[0 + 1]? = some c ∧ isSigil c = true)
      ∧ ((" :id ".toList).drop (0 + 2)).take ("id".toList).length = "id".toList
      ∧ ((5 = 0 + ("id".toList).length + 3
            ∧ ∃ t, (" :id ".toList)[5 - 1]? = some t ∧ isDelim t = true)
          ∨ (5 = 0 + ("id".toList).length + 2 ∧ 5 = (" :id ".toList).length)))
    ∧ adjustCommand ("where id = :identifier ".toList)
        [⟨":id".toList, [], none⟩, ⟨":identifier".toList, [], none⟩]
      = "where id = $2 ".toList
    ∧ adjustCommand ("where id = :identifier ".toList) [⟨":id".toList, [], none⟩]
      = "where id = :identifier ".toList) :=
  ⟨by decide, c3_boundary ("id".toList) (" :id ".toList) 0 5 (by decide)⟩

/-! ### Claim C4 -/

/-- C4 evaluation at the failing input: a Statement whose `isClosed` flag is
true (here, one just closed by a successful `Close`).  `Query` does not
consult the flag: it hands execution to the Connection (`handedToConn =
true`) and returns the ResultSet with no error, and `Execute` and `Scan`
likewise complete without any closed-statement fault — contradicting the
claim that every invocation on a closed Statement fails and no execution is
handed to the Connection. -/
theorem c4_closed_statement_not_guarded :
    (Statement.closeStmt
        { sid := 0, name := "stmt0".toList, portalName := "prtl0".toList,
          command := " :x ".toList, actualCommand := " $1 ".toList,
          isClosed := false, params := [] } none).1.isClosed = true
    ∧ ((Statement.closeStmt
        { sid := 0, name := "stmt0".toList, portalName := "prtl0".toList,
          command := " :x ".toList, actualCommand := " $1 ".toList,
          isClosed := false, params := [] } none).1.query
          (.ok { rowsAffected := 0, closeRecords := 3, closeErr := none,
                 scanFetched := true, scanErr := none })).handedToConn = true
    ∧ ((Statement.closeStmt
        { sid := 0, name := "stmt0".toList, portalName := "prtl0".toList,
          command := " :x ".toList, actualCommand := " $1 ".toList,
          isClosed := false, params := [] } none).1.query
          (.ok { rowsAffected := 0, closeRecords := 3, closeErr := none,
                 scanFetched := true, scanErr := none })).result
        = .ok { rowsAffected := 0, closeRecords := 3, closeErr := none,
                scanFetched := true, scanErr := none }
    ∧ (Statement.closeStmt
        { sid := 0, name := "stmt0".toList, portalName := "prtl0".toList,
          command := " :x ".toList, actualCommand := " $1 ".toList,
          isClosed := false, params := [] } none).1.execute
          (.ok { rowsAffected := 0, closeRecords := 3, closeErr := none,
                 scanFetched := true, scanErr := none }) = (3, none)
    ∧ (Statement.closeStmt
        { sid := 0, name := "stmt0".toList, portalName := "prtl0".toList,
          command := " :x ".toList, actualCommand := " $1 ".toList,
          isClosed := false, params := [] } none).1.scan
          (.ok { rowsAffected := 0, closeRecords := 3, closeErr := none,
                 scanFetched := true, scanErr := none }) = (true, none) :=
  ⟨rfl, rfl, rfl, rfl, rfl⟩

/-! ### Claim C5 -/

/-- C5: the parameter at zero-based index `i` (1-based position `i + 1`) is
processed with the replacement token `$<i+1>::<customTypeName>` when its
customTypeName is non-empty and exactly `$<i+1>` otherwise; the rewrite is
the passes before it, then `replaceParameterName` with that token, then the
passes after it, and within each chunk every match is replaced by exactly
that token.  Concretely, `:x` with custom type `int4` at position 1 rewrites
`" :x "` to `" $1::int4 "`, and with empty custom type to `" $1 "`. -/
theorem c5_cast_token (command : List Char) (params : List ParamObj) (i : Nat)
    (h : i < params.length) :
    (paramToken i (params.get ⟨i, h⟩)
        = '$' :: natToChars (i + 1)
            ++ (if (params.get ⟨i, h⟩).customTypeName = [] then []
                else ':' :: ':' :: (params.get ⟨i, h⟩).customTypeName))
    ∧ adjustCommand command params
        = adjustCommandAux
            (replaceParameterName (adjustCommandAux command (params.take i) 0)
              (params.get ⟨i, h⟩).name (paramToken i (params.get ⟨i, h⟩)))
            (params.drop (i + 1)) (i + 1)
    ∧ (∀ s : List Char,
        rPNIS ((params.get ⟨i, h⟩).name.drop 1) (paramToken i (params.get ⟨i, h⟩)) s
          = interleave
              (segmentsOf s (findMatches ((params.get ⟨i, h⟩).name.drop 1) s) 1)
              (List.replicate
                (findMatches ((params.get ⟨i, h⟩).name.drop 1) s).length
                (paramToken i (params.get ⟨i, h⟩))))
    ∧ adjustCommand (" :x ".toList) [⟨":x".toList, "int4".toList, none⟩]
      = " $1::int4 ".toList
    ∧ adjustCommand (" :x ".toList) [⟨":x".toList, [], none⟩] = " $1 ".toList := by
  refine ⟨rfl, ?_, fun s => ws_interleave s _ _ 1, by decide, by decide⟩
  have hdec : params = params.take i ++ params.get ⟨i, h⟩ :: params.drop (i + 1) := by
    rw [List.get_eq_getElem, ← List.drop_eq_getElem_cons, List.take_append_drop]
  have hlen : (params.take i).length = i := by
    simp [List.length_take]
    omega
  have hd := adjustAux_append (params.take i) (params.get ⟨i, h⟩)
    (params.drop (i + 1)) command 0
  rw [hlen] at hd
  simp only [Nat.zero_add] at hd
  show adjustCommandAux command params 0 = _
  conv_lhs => rw [hdec]
  exact hd

theorem c5_witness :
    (1 < ([⟨":a".toList, [], none⟩, ⟨":x".toList, "int4".toList, none⟩]
        : List ParamObj).length)
    ∧ ((paramToken 1 (([⟨":a".toList, [], none⟩, ⟨":x".toList, "int4".toList, none⟩]
          : List ParamObj).get ⟨1, by decide⟩)
        = '$' :: natToChars (1 + 1)
            ++ (if (([⟨":a".toList, [], none⟩, ⟨":x".toList, "int4".toList, none⟩]
                  : List ParamObj).get ⟨1, by decide⟩).customTypeName = [] then []
                else ':' :: ':' :: (([⟨":a".toList, [], none⟩,
                  ⟨":x".toList, "int4".toList, none⟩]
                  : List ParamObj).get ⟨1, by decide⟩).customTypeName))
      ∧ adjustCommand (" :a :x ".toList)
            [⟨":a".toList, [], none⟩, ⟨":x".toList, "int4".toList, none⟩]
          = adjustCommandAux
              (replaceParameterName
                (adjustCommandAux (" :a :x ".toList)
                  (([⟨":a".toList, [], none⟩, ⟨":x".toList, "int4".toList, none⟩]
                    : List ParamObj).take 1) 0)
                (([⟨":a".toList, [], none⟩, ⟨":x".toList, "int4".toList, none⟩]
                  : List ParamObj).get ⟨1, by decide⟩).name
                (paramToken 1 (([⟨":a".toList, [], none⟩,
                  ⟨":x".toList, "int4".toList, none⟩]
                  : List ParamObj).get ⟨1, by decide⟩)))
              (([⟨":a".toList, [], none⟩, ⟨":x".toList, "int4".toList, none⟩]
                : List ParamObj).drop (1 + 1)) (1 + 1)
      ∧ (∀ s : List Char,
          rPNIS ((([⟨":a".toList, [], none⟩, ⟨":x".toList, "int4".toList, none⟩]
              : List ParamObj).get ⟨1, by decide⟩).name.drop 1)
            (paramToken 1 (([⟨":a".toList, [], none⟩,
              ⟨":x".toList, "int4".toList, none⟩] : List ParamObj).get ⟨1, by decide⟩)) s
            = interleave
                (segmentsOf s
                  (findMatches ((([⟨":a".toList, [], none⟩,
                    ⟨":x".toList, "int4".toList, none⟩]
                    : List ParamObj).get ⟨1, by decide⟩).name.drop 1) s) 1)
                (List.replicate
                  (findMatches ((([⟨":a".toList, [], none⟩,
                    ⟨":x".toList, "int4".toList, none⟩]
                    : List ParamObj).get ⟨1, by decide⟩).name.drop 1) s).length
                  (paramToken 1 (([⟨":a".toList, [], none⟩,
                    ⟨":x".toList, "int4".toList, none⟩]
                    : List ParamObj).get ⟨1, by decide⟩))))
      ∧ adjustCommand (" :x ".toList) [⟨":x".toList, "int4".toList, none⟩]
        = " $1::int4 ".toList
      ∧ adjustCommand (" :x ".toList) [⟨":x".toList, [], none⟩] = " $1 ".toList) :=
  ⟨by decide, c5_cast_token (" :a :x ".toList)
    [⟨":a".toList, [], none⟩, ⟨":x".toList, "int4".toList, none⟩] 1 (by decide)⟩

/-! ### Claim C8 -/

/-- C8: `Execute` is exactly `Query` followed immediately by closing the
returned ResultSet, returning the rows-affected count the ResultSet records
during that close; a `Query` fault propagates unchanged with a zero count,
and a close fault is also returned to the caller (alongside the recorded
count). -/
theorem c8_execute_is_query_close (stmt : Statement) (exec : ExecOutcome) :
    Statement.execute stmt exec = executeSpec stmt exec
    ∧ (∀ e : PgError, Statement.execute stmt (.error e) = (0, some e))
    ∧ (∀ rs : ResultSet,
        Statement.execute stmt (.ok rs) = ((rs.close).1.rowsAffected, (rs.close).2)) := by
  refine ⟨?_, fun e => rfl, fun rs => rfl⟩
  cases exec with
  | ok rs => rfl
  | error e => rfl

/-! ### Claim C10 -/

/-- C10: the sigil character class of the parameter pattern is `[:|@]`, so an
occurrence written with the undocumented `|` sigil (or `@`) in properly
delimited unquoted text is replaced by the positional token exactly as the
`:` form is, while a character outside the class (here `#`) is not. -/
theorem c10_pipe_sigil (c : Char) (h : c = ':' ∨ c = '|' ∨ c = '@') :
    adjustCommand ("select ".toList ++ c :: "id from t".toList)
        [⟨":id".toList, [], none⟩]
      = "select $1 from t".toList
    ∧ adjustCommand ("select #id from t".toList) [⟨":id".toList, [], none⟩]
      = "select #id from t".toList
    ∧ isSigil c = true := by
  rcases h with rfl | rfl | rfl <;> exact ⟨by decide, by decide, by decide⟩

theorem c10_witness :
    ('|' = ':' ∨ '|' = '|' ∨ '|' = '@')
    ∧ (adjustCommand ("select ".toList ++ '|' :: "id from t".toList)
          [⟨":id".toList, [], none⟩]
        = "select $1 from t".toList
      ∧ adjustCommand ("select #id from t".toList) [⟨":id".toList, [], none⟩]
        = "select #id from t".toList
      ∧ isSigil '|' = true) :=
  ⟨by decide, c10_pipe_sigil '|' (by decide)⟩

/-! ### Claim C6 -/

/-- C6: construction faults whenever a supplied parameter reference is nil or
its object is already bound (second conjunct of the conclusion, for any world
`v` and reference list `ps` with a nil entry or an already-bound entry); and
a parameter object bound by one successful construction makes any second
construction supplying it fault (first conjunct). -/
theorem c6_construction_faults (w v : World) (command command2 c : List Char)
    (prefs prefs2 ps : List (Option Nat)) (w2 : World) (stmt : Statement) (pid : Nat)
    (hok : newStatement w command prefs = .ok (w2, stmt))
    (hmem : some pid ∈ prefs) (hmem2 : some pid ∈ prefs2)
    (hbad : none ∈ ps
      ∨ ∃ q r, some q ∈ ps ∧ v.store[q]? = some r ∧ r.stmt.isSome = true) :
    (newStatement w2 command2 prefs2).isOk = false
    ∧ (newStatement v c ps).isOk = false := by
  constructor
  · obtain ⟨_, _, _, _, objs, hb⟩ := newStatement_ok_facts hok
    obtain ⟨p', hp', hps⟩ := bind_ok_binds prefs w.store w.nextSid w2.store objs hb pid hmem
    obtain ⟨f, w3, he⟩ := newStatement_faults command2
      (bind_no_ok prefs2 w2.store w2.nextSid (Or.inr ⟨pid, p', hmem2, hp', hps⟩))
    rw [he]
    rfl
  · obtain ⟨f, w3, he⟩ := newStatement_faults c (bind_no_ok ps v.store v.nextSid hbad)
    rw [he]
    rfl

theorem c6_witness :
    (newStatement ⟨[⟨":x".toList, [], none⟩], ⟨0, 0⟩, 0⟩ (" :x ".toList) [some 0]
        = .ok (⟨[⟨":x".toList, [], some 0⟩], ⟨1, 1⟩, 1⟩,
               ⟨0, "stmt0".toList, "prtl0".toList, " :x ".toList, " $1 ".toList,
                 false, [0]⟩))
    ∧ (some 0 ∈ [some (0 : Nat)])
    ∧ ((newStatement ⟨[⟨":x".toList, [], some 0⟩], ⟨1, 1⟩, 1⟩ ("q".toList)
          [some 0]).isOk = false
      ∧ (newStatement ⟨[⟨":y".toList, [], some 7⟩], ⟨0, 0⟩, 3⟩ ("q".toList)
          [some 0]).isOk = false) :=
  ⟨rfl, by decide,
    c6_construction_faults ⟨[⟨":x".toList, [], none⟩], ⟨0, 0⟩, 0⟩
      ⟨[⟨":y".toList, [], some 7⟩], ⟨0, 0⟩, 3⟩
      (" :x ".toList) ("q".toList) ("q".toList) [some 0] [some 0] [some 0]
      ⟨[⟨":x".toList, [], some 0⟩], ⟨1, 1⟩, 1⟩
      ⟨0, "stmt0".toList, "prtl0".toList, " :x ".toList, " $1 ".toList, false, [0]⟩
      0 rfl (by decide) (by decide)
      (Or.inr ⟨0, ⟨":y".toList, [], some 7⟩, by decide, by decide, by decide⟩)⟩

/-! ### Claim C7 -/

/-- C7: starting from the spec-modelled zero-based connection counters, the
`i`-th successfully constructed statement of any construction sequence is
named `stmt<i>` with portal `prtl<i>`; all prepared-statement and portal
names generated over the sequence are pairwise distinct, and each connection
counter ends equal to the number of successful constructions (it advanced by
exactly one per construction). -/
theorem c7_resource_names (store : Store) (nsid : Nat) (reqs : List ConstructReq)
    (i : Nat) (h : i < (runConstructions ⟨store, initialConn, nsid⟩ reqs).1.length) :
    ((runConstructions ⟨store, initialConn, nsid⟩ reqs).1.get ⟨i, h⟩).name
        = "stmt".toList ++ natToChars i
    ∧ ((runConstructions ⟨store, initialConn, nsid⟩ reqs).1.get ⟨i, h⟩).portalName
        = "prtl".toList ++ natToChars i
    ∧ ((runConstructions ⟨store, initialConn, nsid⟩ reqs).1.map (fun st => st.name)
        ++ (runConstructions ⟨store, initialConn, nsid⟩ reqs).1.map
            (fun st => st.portalName)).Nodup
    ∧ (runConstructions ⟨store, initialConn, nsid⟩ reqs).2.conn.nextStatementId
        = (runConstructions ⟨store, initialConn, nsid⟩ reqs).1.length
    ∧ (runConstructions ⟨store, initialConn, nsid⟩ reqs).2.conn.nextPortalId
        = (runConstructions ⟨store, initialConn, nsid⟩ reqs).1.length := by
  obtain ⟨h1, h2, h3, h4⟩ := runs_names reqs ⟨store, initialConn, nsid⟩
  have hz1 : (⟨store, initialConn, nsid⟩ : World).conn.nextStatementId = 0 := rfl
  have hz2 : (⟨store, initialConn, nsid⟩ : World).conn.nextPortalId = 0 := rfl
  rw [hz1] at h1 h3
  rw [hz2] at h2 h4
  have hzs : (List.range (runConstructions ⟨store, initialConn, nsid⟩ reqs).1.length).map
        (fun j => "stmt".toList ++ natToChars (0 + j))
      = (List.range (runConstructions ⟨store, initialConn, nsid⟩ reqs).1.length).map
        (fun j => "stmt".toList ++ natToChars j) := by
    apply List.map_congr_left
    intro a _
    rw [Nat.zero_add]
  have hzp : (List.range (runConstructions ⟨store, initialConn, nsid⟩ reqs).1.length).map
        (fun j => "prtl".toList ++ natToChars (0 + j))
      = (List.range (runConstructions ⟨store, initialConn, nsid⟩ reqs).1.length).map
        (fun j => "prtl".toList ++ natToChars j) := by
    apply List.map_congr_left
    intro a _
    rw [Nat.zero_add]
  rw [hzs] at h1
  rw [hzp] at h2
  refine ⟨?_, ?_, ?_, by rw [h3, Nat.zero_add], by rw [h4, Nat.zero_add]⟩
  · have hmi := congrArg (fun l => l[i]?) h1
    simp only [List.getElem?_map] at hmi
    rw [List.getElem?_eq_getElem h] at hmi
    rw [List.getElem?_eq_getElem (by simpa using h)] at hmi
    simp only [Option.map_some', Option.some.injEq, List.getElem_range] at hmi
    rw [List.get_eq_getElem]
    exact hmi
  · have hmi := congrArg (fun l => l[i]?) h2
    simp only [List.getElem?_map] at hmi
    rw [List.getElem?_eq_getElem h] at hmi
    rw [List.getElem?_eq_getElem (by simpa using h)] at hmi
    simp only [Option.map_some', Option.some.injEq, List.getElem_range] at hmi
    rw [List.get_eq_getElem]
    exact hmi
  · apply List.nodup_append.mpr
    refine ⟨?_, ?_, ?_⟩
    · rw [h1]
      exact (List.nodup_range _).map (append_natToChars_inj _)
    · rw [h2]
      exact (List.nodup_range _).map (append_natToChars_inj _)
    · rw [h1, h2]
      intro a ha hb
      obtain ⟨j1, _, hj1⟩ := List.mem_map.mp ha
      obtain ⟨j2, _, hj2⟩ := List.mem_map.mp hb
      exact stmt_ne_prtl _ _ (hj1.trans hj2.symm)

theorem c7_witness :
    (1 < (runConstructions ⟨[], initialConn, 0⟩ [([], []), ([], [])]).1.length)
    ∧ (((runConstructions ⟨[], initialConn, 0⟩ [([], []), ([], [])]).1.get
          ⟨1, by decide⟩).name = "stmt".toList ++ natToChars 1
      ∧ ((runConstructions ⟨[], initialConn, 0⟩ [([], []), ([], [])]).1.get
          ⟨1, by decide⟩).portalName = "prtl".toList ++ natToChars 1
      ∧ ((runConstructions ⟨[], initialConn, 0⟩ [([], []), ([], [])]).1.map
            (fun st => st.name)
          ++ (runConstructions ⟨[], initialConn, 0⟩ [([], []), ([], [])]).1.map
            (fun st => st.portalName)).Nodup
      ∧ (runConstructions ⟨[], initialConn, 0⟩ [([], []), ([], [])]).2.conn.nextStatementId
          = (runConstructions ⟨[], initialConn, 0⟩ [([], []), ([], [])]).1.length
      ∧ (runConstructions ⟨[], initialConn, 0⟩ [([], []), ([], [])]).2.conn.nextPortalId
          = (runConstructions ⟨[], initialConn, 0⟩ [([], []), ([], [])]).1.length) :=
  ⟨by decide, c7_resource_names [] 0 [([], []), ([], [])] 1 (by decide)⟩

/-! ### Claim C9 -/

/-- C9: construction is not atomic on failure.  If `newStatement` faults on
the list `pre ++ x :: rest` after the prefix `pre` bound successfully, then
every parameter referenced in `pre` already carries a back-reference in the
error world's store, and any retry supplying such a parameter faults. -/
theorem c9_partial_binding (w : World) (command command2 : List Char)
    (pre : List (Option Nat)) (x : Option Nat) (rest prefs2 : List (Option Nat))
    (f : ConstructFault) (w' : World) (storeMid : Store) (objs : List ParamObj)
    (pid : Nat)
    (herr : newStatement w command (pre ++ x :: rest) = .error (f, w'))
    (hpre : bindParams w.nextSid w.store pre = .ok (storeMid, objs))
    (hmem : some pid ∈ pre) (hmem2 : some pid ∈ prefs2) :
    (w'.store[pid]?.elim false (fun p => p.stmt.isSome)) = true
    ∧ (newStatement w' command2 prefs2).isOk = false := by
  obtain ⟨_, hbind⟩ := newStatement_error_facts herr
  obtain ⟨p', hp', hps⟩ := bind_prefix_bound hpre hbind pid hmem
  constructor
  · rw [hp']
    exact hps
  · obtain ⟨f2, w3, he⟩ := newStatement_faults command2
      (bind_no_ok prefs2 w'.store w'.nextSid (Or.inr ⟨pid, p', hmem2, hp', hps⟩))
    rw [he]
    rfl

theorem c9_witness :
    (newStatement ⟨[⟨":a".toList, [], none⟩], ⟨0, 0⟩, 0⟩ ("c".toList)
        ([some 0] ++ none :: [])
      = .error (.nilParameter, ⟨[⟨":a".toList, [], some 0⟩], ⟨0, 0⟩, 1⟩))
    ∧ (bindParams 0 [⟨":a".toList, [], none⟩] [some 0]
      = .ok ([⟨":a".toList, [], some 0⟩], [⟨":a".toList, [], some 0⟩]))
    ∧ (((⟨[⟨":a".toList, [], some 0⟩], ⟨0, 0⟩, 1⟩ : World).store[0]?.elim false
          (fun p => p.stmt.isSome)) = true
      ∧ (newStatement ⟨[⟨":a".toList, [], some 0⟩], ⟨0, 0⟩, 1⟩ ("d".toList)
          [some 0]).isOk = false) :=
  ⟨rfl, rfl,
    c9_partial_binding ⟨[⟨":a".toList, [], none⟩], ⟨0, 0⟩, 0⟩ ("c".toList) ("d".toList)
      [some 0] none [] [some 0] .nilParameter
      ⟨[⟨":a".toList, [], some 0⟩], ⟨0, 0⟩, 1⟩
      [⟨":a".toList, [], some 0⟩] [⟨":a".toList, [], some 0⟩] 0
      rfl rfl (by decide) (by decide)⟩

end Pgsql

